import Mathlib

set_option maxRecDepth 100000

/-!
Verification development for the `free-style` CSS-in-JS library
(src/free-style.ts). The TypeScript source is shallowly embedded:

* JS 32-bit integer arithmetic is modelled on `Nat` with explicit
  reductions modulo `2 ^ 32` at the points where JS coerces
  (`^=` / `<<` operate on int32 views; `>>> 0` forces uint32);
* JS strings are Lean `String`s; `charCodeAt` is `Char.toNat`
  (they agree on the Basic Multilingual Plane, and on all inputs used
  by the library's callers and tests);
* JS objects used as maps (`_cache`, `_cacheCount`, user style trees)
  are association lists in insertion order, which is the iteration
  order of string-keyed JS objects;
* mutation is explicit state passing, and the synchronous listener
  callbacks of the `Cache` event emitter are modelled by returning the
  list of emitted events.
-/

set_option linter.dupNamespace false

namespace FreeStyle

/-! ## JS-flavoured string helpers -/

/-- ASCII uppercase test: what the regex `[A-Z]` of `hyphenate` matches. -/
def isAsciiUpper (c : Char) : Bool :=
  'A' ≤ c && c ≤ 'Z'

/-- JS `toLowerCase` restricted to its ASCII action (the library only ever
lowercases property names built from ASCII identifiers). -/
def jsToLower (c : Char) : Char :=
  if isAsciiUpper c then Char.ofNat (c.toNat + 32) else c

/-- The JS `trim` whitespace class (ASCII fragment; the exotic Unicode
space code points never occur in style keys). -/
def isJsSpace (c : Char) : Bool :=
  c = ' ' || c = '\t' || c = '\n' || c = '\r' || c = '\x0b' || c = '\x0c'

/-- Drop leading whitespace characters. -/
def dropLeadingSpace : List Char → List Char
  | [] => []
  | c :: rest => if isJsSpace c then dropLeadingSpace rest else c :: rest

/-- JS `String.prototype.trim`, modelled on the character list. -/
def jsTrim (s : String) : String :=
  String.mk (List.reverse (dropLeadingSpace (List.reverse (dropLeadingSpace s.data))))

/-- JS string `<` (the comparison used by the default `Array.sort`):
lexicographic on the code units. -/
def charListLt : List Char → List Char → Bool
  | [], [] => false
  | [], _ :: _ => true
  | _ :: _, [] => false
  | a :: as, b :: bs =>
    if a.toNat < b.toNat then true
    else if b.toNat < a.toNat then false
    else charListLt as bs

/-- JS string comparison on `String`. -/
def keyLt (a b : String) : Bool :=
  charListLt a.data b.data

/-! ## Hashing (`hash`, `hashToString`, `hashString` of free-style.ts) -/

/-- `2 ^ 32`, the modulus of all JS 32-bit coercions. -/
def UINT32 : Nat := 4294967296

/-- One loop iteration of `hash`:
`value ^= str.charCodeAt(i)` followed by
`value += (value << 1) + (value << 4) + (value << 7) + (value << 8) + (value << 24)`.
The XOR acts on the int32 views (equal, mod `2 ^ 32`, to XOR of the uint32
views), each shift is truncated to 32 bits, and the running value is only
ever observed modulo `2 ^ 32` (by the next XOR or by the final `>>> 0`),
so the state is kept reduced. -/
def hashStep (value c : Nat) : Nat :=
  let v := (value % UINT32) ^^^ (c % UINT32)
  (v + v * 2 % UINT32 + v * 16 % UINT32 + v * 128 % UINT32 +
      v * 256 % UINT32 + v * 16777216 % UINT32) % UINT32

/-- `hash (str, seed?)`.  `seed || 0x811c9dc5` makes an absent *or zero*
seed fall back to the FNV offset basis; the final `>>> 0` forces the
result to an unsigned 32-bit integer. -/
def hash (str : String) (seed : Option Nat) : Nat :=
  let start :=
    match seed with
    | none => 2166136261
    | some s => if s = 0 then 2166136261 else s
  ((str.data.map Char.toNat).foldl hashStep start) % UINT32

/-- Digit characters of JS `Number.prototype.toString(32)`: `0`-`9` then `a`-`v`. -/
def digitChar32 (n : Nat) : Char :=
  if n < 10 then Char.ofNat (48 + n) else Char.ofNat (87 + n)

/-- Base-32 digit accumulation with an explicit recursion bound (the bound
keeps the definition structurally recursive, hence executable and
kernel-reducible; `n + 1` steps always suffice since `n / 32 < n`). -/
def toBase32Aux : Nat → Nat → List Char
  | 0, _ => []
  | fuel + 1, n =>
    if n < 32 then [digitChar32 n]
    else toBase32Aux fuel (n / 32) ++ [digitChar32 (n % 32)]

/-- Base-32 digit list of a natural number, most significant digit first. -/
def toBase32 (n : Nat) : List Char :=
  toBase32Aux (n + 1) n

/-- `hashToString (hash) = hash.toString(32)` for the unsigned 32-bit hash value. -/
def hashToString (hsh : Nat) : String :=
  String.mk (toBase32 hsh)

/-- `hashString (str) = hashToString(hash(str))`. -/
def hashString (str : String) : String :=
  hashToString (hash str none)

/-! ## Property compilation -/

/-- `hyphenate`: insert `-` before every `[A-Z]`, turn a leading `ms-` into
`-ms-`, then lowercase.  Character-level model of the two regex replaces. -/
def dashify : List Char → List Char
  | [] => []
  | c :: cs => if isAsciiUpper c then '-' :: c :: dashify cs else c :: dashify cs

/-- The second replace of `hyphenate`: a leading `ms-` becomes `-ms-`
(Internet Explorer vendor pref), applied to the dashed character list. -/
def msDash (l : List Char) : List Char :=
  match l with
  | 'm' :: 's' :: '-' :: rest => '-' :: 'm' :: 's' :: '-' :: rest
  | l => l

/-- `hyphenate (propertyName)` of free-style.ts. -/
def hyphenate (propertyName : String) : String :=
  String.mk ((msDash (dashify propertyName.data)).map jsToLower)

/-- `isAtRule (propertyName)`: `propertyName.charAt(0) === '@'`. -/
def isAtRule (propertyName : String) : Bool :=
  propertyName.data.head? = some '@'

/-- A non-nested user style value, as classified by `isNestedStyle`:
`null`/`undefined`, a scalar (string or number, carried as its JS string
rendering), or an array of such scalars. -/
inductive PropValue : Type where
  | scalar (v : Option String)
  | arr (vs : List (Option String))
deriving DecidableEq

/-- A value in a user style tree: a property value or a nested style
object (`isNestedStyle`: non-null, `typeof === 'object'`, not an array). -/
inductive UserValue : Type where
  | scalar (v : Option String)
  | arr (vs : List (Option String))
  | nested (styles : List (String × UserValue))

/-- A user style tree: a JS object in key insertion order. -/
abbrev UserStyles := List (String × UserValue)

/-- `styleStringToString (name, value)`: `''` for `null`/`undefined`,
`name:value;` otherwise. -/
def styleStringToString (name : String) (value : Option String) : String :=
  match value with
  | none => ""
  | some v => name ++ ":" ++ v ++ ";"

/-- `styleToString (name, value)`: map over arrays, else a single declaration. -/
def styleToString (name : String) (value : PropValue) : String :=
  match value with
  | .arr vs => String.join (vs.map (styleStringToString name))
  | .scalar v => styleStringToString name v

/-- Stable insertion of one keyed pair into a key-sorted list; `p` goes in
front of the first entry whose key is not smaller than `p`'s. -/
def insertPair {α : Type} (p : String × α) : List (String × α) → List (String × α)
  | [] => [p]
  | q :: rest => if keyLt q.1 p.1 then q :: insertPair p rest else p :: q :: rest

/-- Stable sort of an association list by key: the model of
`Object.keys(styles).sort()` followed by indexed reads. -/
def sortPairs {α : Type} : List (String × α) → List (String × α)
  | [] => []
  | p :: rest => insertPair p (sortPairs rest)

/-- Parsed form of one style layer. -/
structure ParsedUserStyles : Type where
  properties : List (String × PropValue)
  nestedStyles : List (String × UserStyles)

/-- The categorization loop of `parseUserStyles` over the sorted keys. -/
def categorize : List (String × UserValue) → ParsedUserStyles
  | [] => ⟨[], []⟩
  | (key, value) :: rest =>
    let r := categorize rest
    match value with
    | .nested styles => ⟨r.properties, (jsTrim key, styles) :: r.nestedStyles⟩
    | .scalar v => ⟨(hyphenate (jsTrim key), .scalar v) :: r.properties, r.nestedStyles⟩
    | .arr vs => ⟨(hyphenate (jsTrim key), .arr vs) :: r.properties, r.nestedStyles⟩

/-- `parseUserStyles (styles)`: sort keys, then route each entry to the
property list or the nested-style list. -/
def parseUserStyles (styles : UserStyles) : ParsedUserStyles :=
  categorize (sortPairs styles)

/-- `stringifyProperties (properties)`. -/
def stringifyProperties (properties : List (String × PropValue)) : String :=
  String.join (properties.map (fun p => styleToString p.1 p.2))

/-- `interpolate (selector, parentSelector)`: substitute every `&`, or
join with a descendant-combinator space. -/
def interpolate (selector parentSelector : String) : String :=
  if selector.data.contains '&' then
    String.mk (selector.data.flatMap (fun c => if c = '&' then parentSelector.data else [c]))
  else
    parentSelector ++ " " ++ selector

/-! ## The node hierarchy

`Selector` is represented by its selector string (its only data).
`Style` and `AtRule`/`Container` nodes form one inductive; each node
carries the association lists of its own `Cache` fields
(`_cache` in insertion order, and `_cacheCount`). -/

inductive CNode : Type where
  | styleNode (style : String) (selCache : List (String × String)) (selCounts : List (String × Nat))
  | atRuleNode (rule : String) (subCache : List (String × CNode)) (subCounts : List (String × Nat))

/-- `Selector`'s constructor id: `` `s${hashString(selector)}` ``. -/
def selectorId (selector : String) : String := "s" ++ hashString selector

/-- `Style`'s constructor id: `` `n${hashString(style)}` ``. -/
def styleId (style : String) : String := "n" ++ hashString style

/-- `AtRule`'s constructor id: `` `a${hashString(rule)}` ``. -/
def atRuleId (rule : String) : String := "a" ++ hashString rule

/-- The `id` field a node was constructed with. -/
def CNode.id : CNode → String
  | .styleNode style _ _ => styleId style
  | .atRuleNode rule _ _ => atRuleId rule

/-- JS property assignment `obj[k] = v` on an association list: replace the
first binding of `k`, or append a fresh binding at the end (insertion order). -/
def assocSet {α : Type} : List (String × α) → String → α → List (String × α)
  | [], k, v => [(k, v)]
  | p :: rest, k, v => if p.1 = k then (k, v) :: rest else p :: assocSet rest k v

/-- JS property read `obj[k]` on an association list. -/
def assocGet {α : Type} : List (String × α) → String → Option α
  | [], _ => none
  | p :: rest, k => if p.1 = k then some p.2 else assocGet rest k

/-- `this._cacheCount[id] || 0`. -/
def countOf (counts : List (String × Nat)) (k : String) : Nat :=
  (assocGet counts k).getD 0

/-- The `Cache` content of a node viewed as a `Container`
(`stylize` only ever does this to `AtRule` nodes: `'a'`-prefixed cache
keys hold `AtRule`s, see the id-tagging theorems below). -/
def CNode.subCacheOf : CNode → List (String × CNode)
  | .atRuleNode _ sub _ => sub
  | .styleNode _ _ _ => []

/-- The `Cache` counters of a node viewed as a `Container`. -/
def CNode.subCountsOf : CNode → List (String × Nat)
  | .atRuleNode _ _ c => c
  | .styleNode _ _ _ => []

/-- Write back the mutated `Container` content of an `AtRule` node. -/
def CNode.withSub : CNode → List (String × CNode) → List (String × Nat) → CNode
  | .atRuleNode rule _ _, sub, counts => .atRuleNode rule sub counts
  | n, _, _ => n

/-! ### Termination of the tree walk

`stylize` recurses into the nested style trees produced by
`parseUserStyles`; those are values of the input association list (sorting
permutes, categorizing selects), hence structurally smaller.  The
decreasing measure is an executable structural size of the style tree. -/

mutual

/-- Structural size of a user style value (executable, used as the
termination measure of `stylize`). -/
def UserValue.usize : UserValue → Nat
  | .scalar _ => 1
  | .arr _ => 1
  | .nested ts => 1 + ussize ts

/-- Structural size of a user style tree. -/
def ussize : List (String × UserValue) → Nat
  | [] => 0
  | (_, v) :: rest => 1 + v.usize + ussize rest

end

theorem mem_of_mem_insertPair {α : Type} {a p : String × α} {l : List (String × α)}
    (h : a ∈ insertPair p l) : a = p ∨ a ∈ l := by
  induction l with
  | nil =>
    simp only [insertPair, List.mem_singleton] at h
    exact Or.inl h
  | cons q rest ih =>
    rw [insertPair] at h
    by_cases hq : keyLt q.1 p.1 = true
    · rw [if_pos hq] at h
      rcases List.mem_cons.mp h with h | h
      · exact Or.inr (h ▸ List.mem_cons_self q rest)
      · rcases ih h with h | h
        · exact Or.inl h
        · exact Or.inr (List.mem_cons_of_mem _ h)
    · rw [if_neg hq] at h
      rcases List.mem_cons.mp h with h | h
      · exact Or.inl h
      · exact Or.inr h

theorem mem_of_mem_sortPairs {α : Type} {a : String × α} {l : List (String × α)}
    (h : a ∈ sortPairs l) : a ∈ l := by
  induction l with
  | nil =>
    simp [sortPairs] at h
  | cons p rest ih =>
    rw [sortPairs] at h
    rcases mem_of_mem_insertPair h with h | h
    · simp [h]
    · exact List.mem_cons_of_mem _ (ih h)

theorem mem_of_mem_categorize_nested {l : List (String × UserValue)} {k : String}
    {ts : UserStyles} (h : (k, ts) ∈ (categorize l).nestedStyles) :
    ∃ k', (k', UserValue.nested ts) ∈ l := by
  induction l with
  | nil => simp [categorize] at h
  | cons p rest ih =>
    obtain ⟨key, value⟩ := p
    cases value with
    | nested styles =>
      simp only [categorize, List.mem_cons] at h
      rcases h with h | h
      · have hts : ts = styles := (Prod.ext_iff.mp h).2
        subst hts
        exact ⟨key, List.mem_cons_self _ _⟩
      · obtain ⟨k', hk'⟩ := ih h
        exact ⟨k', List.mem_cons_of_mem _ hk'⟩
    | scalar v =>
      simp only [categorize] at h
      obtain ⟨k', hk'⟩ := ih h
      exact ⟨k', List.mem_cons_of_mem _ hk'⟩
    | arr vs =>
      simp only [categorize] at h
      obtain ⟨k', hk'⟩ := ih h
      exact ⟨k', List.mem_cons_of_mem _ hk'⟩

theorem usize_lt_of_mem {l : List (String × UserValue)} {p : String × UserValue}
    (h : p ∈ l) : p.2.usize < ussize l := by
  induction l with
  | nil => simp at h
  | cons q rest ih =>
    rcases List.mem_cons.mp h with h | h
    · subst h
      rw [ussize]
      omega
    · have := ih h
      rw [ussize]
      omega

theorem usize_nested_lt (styles : UserStyles) (p : String × UserStyles)
    (hp : p ∈ (parseUserStyles styles).nestedStyles) : ussize p.2 < ussize styles := by
  obtain ⟨k, ts⟩ := p
  show ussize ts < ussize styles
  obtain ⟨k', hk'⟩ := mem_of_mem_categorize_nested (l := sortPairs styles) hp
  have hmem : (k', UserValue.nested ts) ∈ styles := mem_of_mem_sortPairs hk'
  have hlt := usize_lt_of_mem hmem
  rw [show (k', UserValue.nested ts).2 = UserValue.nested ts from rfl, UserValue.usize] at hlt
  omega

/-! ### The recursive compiler (`registerUserStyles` / `stylize`) -/

/-- The state threaded through `stylize`: the current container's
`_cache`/`_cacheCount`, the running `currentHash`, and the
`styleInstances` list.  Each recorded instance is
`(container path as a list of at-rule ids, style id, selector)`:
the canonical `Style` object pushed by the source is the cached node
reached by that path and id. -/
structure StylizeResult : Type where
  cache : List (String × CNode)
  counts : List (String × Nat)
  hsh : Nat
  insts : List (List String × String × String)

/-- Weight of a nested-styles work list for the recursion bound of the
tree walk. -/
def uslSize : List (String × UserStyles) → Nat
  | [] => 0
  | (_, ts) :: rest => 2 + ussize ts + uslSize rest

mutual

/-- One layer of the `stylize` walk of `registerUserStyles`, with an
explicit recursion bound (first argument) that keeps the mutual recursion
structural, hence executable and kernel-reducible.  `stylize` below
instantiates the bound with a sufficient value and the congruence lemmas
show the bound is semantically inert.

Per layer: compile the layer's properties, `add` a `Style` keyed by the
declaration text, record the `(selector, style)` instance, mix selector
then declaration text into the running hash, and walk the nested styles
in sorted key order. -/
def stylizeFuel : Nat → List (String × CNode) → List (String × Nat) → UserStyles →
    String → List String → Nat → List (List String × String × String) → StylizeResult
  | 0, cache, counts, _, _, _, hsh, insts => ⟨cache, counts, hsh, insts⟩
  | fuel + 1, cache, counts, styles, selector, path, hsh, insts =>
    let parsed := parseUserStyles styles
    let styleString := stringifyProperties parsed.properties
    let sid := styleId styleString
    let count := countOf counts sid
    let counts1 := assocSet counts sid (count + 1)
    let cache1 :=
      if count = 0 then assocSet cache sid (CNode.styleNode styleString [] []) else cache
    let insts1 := insts ++ [(path, sid, selector)]
    let h1 := hash selector (some hsh)
    let h2 := hash styleString (some h1)
    stylizeListFuel fuel cache1 counts1 parsed.nestedStyles selector path h2 insts1

/-- The nested-styles loop of `stylize`: an at-rule key `add`s (or reuses)
an `AtRule` under the current container and recurses into it with the
same selector; any other key recurses into the same container with the
interpolated selector. -/
def stylizeListFuel : Nat → List (String × CNode) → List (String × Nat) →
    List (String × UserStyles) → String → List String → Nat →
    List (List String × String × String) → StylizeResult
  | _, cache, counts, [], _, _, hsh, insts => ⟨cache, counts, hsh, insts⟩
  | 0, cache, counts, _ :: _, _, _, hsh, insts => ⟨cache, counts, hsh, insts⟩
  | fuel + 1, cache, counts, (name, ts) :: rest, selector, path, hsh, insts =>
    if isAtRule name then
      let aid := atRuleId name
      let count := countOf counts aid
      let counts1 := assocSet counts aid (count + 1)
      let cache1 :=
        if count = 0 then assocSet cache aid (CNode.atRuleNode name [] []) else cache
      let child := (assocGet cache1 aid).getD (CNode.atRuleNode name [] [])
      let r := stylizeFuel fuel child.subCacheOf child.subCountsOf ts selector
        (path ++ [aid]) hsh insts
      let cache2 := assocSet cache1 aid (child.withSub r.cache r.counts)
      stylizeListFuel fuel cache2 counts1 rest selector path r.hsh r.insts
    else
      let r := stylizeFuel fuel cache counts ts (interpolate name selector) path hsh insts
      stylizeListFuel fuel r.cache r.counts rest selector path r.hsh r.insts

end

/-- `stylize (container, styles, selector)` of `registerUserStyles`. -/
def stylize (cache : List (String × CNode)) (counts : List (String × Nat))
    (styles : UserStyles) (selector : String) (path : List String)
    (hsh : Nat) (insts : List (List String × String × String)) : StylizeResult :=
  stylizeFuel (ussize styles + 1) cache counts styles selector path hsh insts

/-- The nested-styles loop of `stylize` at its canonical recursion bound. -/
def stylizeList (cache : List (String × CNode)) (counts : List (String × Nat))
    (l : List (String × UserStyles)) (selector : String) (path : List String)
    (hsh : Nat) (insts : List (List String × String × String)) : StylizeResult :=
  stylizeListFuel (uslSize l) cache counts l selector path hsh insts

/-- The `style.add(new Selector(sel))` calls of `registerUserStyles`,
replayed against the node reached by walking `path` and looking up the
style id (the canonical `Style` instance recorded in `styleInstances`). -/
def addSelectorAt (cache : List (String × CNode)) (path : List String) (sid : String)
    (sel : String) : List (String × CNode) :=
  match path with
  | [] =>
    match assocGet cache sid with
    | some (CNode.styleNode st selCache selCounts) =>
      let i := selectorId sel
      let c := countOf selCounts i
      let selCounts1 := assocSet selCounts i (c + 1)
      let selCache1 := if c = 0 then assocSet selCache i sel else selCache
      assocSet cache sid (CNode.styleNode st selCache1 selCounts1)
    | _ => cache
  | aid :: rest =>
    match assocGet cache aid with
    | some (CNode.atRuleNode rule sub subCounts) =>
      assocSet cache aid (CNode.atRuleNode rule (addSelectorAt sub rest sid sel) subCounts)
    | _ => cache

/-- `registerUserStyles (container, styles)`: walk the tree from selector
`&`, derive the class name from the accumulated hash, then add an
interpolated `Selector` to every recorded style instance. -/
def registerUserStyles (cache : List (String × CNode)) (counts : List (String × Nat))
    (styles : UserStyles) : List (String × CNode) × List (String × Nat) × String :=
  let r := stylize cache counts styles "&" [] 0 []
  let currentClassName := hashToString r.hsh
  let currentSelector := "." ++ currentClassName
  let finalCache := r.insts.foldl
    (fun c inst => addSelectorAt c inst.1 inst.2.1 (interpolate inst.2.2 currentSelector))
    r.cache
  (finalCache, r.counts, currentClassName)

mutual

/-- `getStyles` of `Style` (empty declaration text renders as the empty
string, selectors joined by commas otherwise) and of `AtRule`
(rule text wrapping the container rendering in braces). -/
def CNode.getStyles : CNode → String
  | .styleNode style selCache _ =>
    if style = "" then ""
    else String.intercalate "," (selCache.map Prod.snd) ++ "\x7b" ++ style ++ "\x7d"
  | .atRuleNode rule sub _ => rule ++ "\x7b" ++ getStylesList sub ++ "\x7d"

/-- `getStyles` of `Container`: concatenate the children's renderings in
cache insertion order (`values().map(s => s.getStyles()).join('')`). -/
def getStylesList : List (String × CNode) → String
  | [] => ""
  | (_, node) :: rest => node.getStyles ++ getStylesList rest

end

/-- The `FreeStyle` root: a `Container` whose externally assigned
instance id plays no role in registration or rendering. -/
structure FreeStyle : Type where
  cache : List (String × CNode) := []
  counts : List (String × Nat) := []

/-- `create ()`. -/
def create : FreeStyle := {}

/-- `registerStyle (styles)` on the root container. -/
def FreeStyle.registerStyle (f : FreeStyle) (styles : UserStyles) : FreeStyle × String :=
  let r := registerUserStyles f.cache f.counts styles
  (⟨r.1, r.2.1⟩, r.2.2)

/-- `getStyles ()` on the root container. -/
def FreeStyle.getStyles (f : FreeStyle) : String :=
  getStylesList f.cache

/-! ## The generic reference-counted cache (`Cache<T extends ICacheable>`)

Studied on its own, exactly as the source defines it; the node tree above
inlines the same operations at each nesting level. -/

/-- The `ICacheable` interface: a cached value exposes its `id`. -/
class ICacheable (T : Type) where
  id : T → String

/-- One change notification, as handed to every listener in order
(`emitChange(type, style)`). -/
inductive CacheEvent (T : Type) : Type where
  | add (item : T)
  | remove (item : T)
deriving DecidableEq

/-- `delete obj[k]` on an association list: drop the binding of `k`
(JS objects bind each key at most once). -/
def assocDelete {α : Type} : List (String × α) → String → List (String × α)
  | [], _ => []
  | p :: rest, k => if p.1 = k then rest else p :: assocDelete rest k

/-- The state of a `Cache` instance: `_cache` in insertion order and
`_cacheCount`.  Listeners are modelled by returning emitted events. -/
structure Cache (T : Type) : Type where
  cache : List (String × T) := []
  cacheCount : List (String × Nat) := []

/-- `values()`: entries in map iteration order. -/
def Cache.values {T : Type} (c : Cache T) : List T :=
  c.cache.map Prod.snd

/-- `count (style)`. -/
def Cache.count {T : Type} [ICacheable T] (c : Cache T) (style : T) : Nat :=
  countOf c.cacheCount (ICacheable.id style)

/-- `has (style)`. -/
def Cache.has {T : Type} [ICacheable T] (c : Cache T) (style : T) : Bool :=
  decide (0 < c.count style)

/-- `add (style)`: bump the count; on a 0 → 1 transition store the item
and emit `add`.  Returns `this._cache[style.id]` — the canonical stored
instance (on a hit, the previously stored one, not the argument). -/
def Cache.add {T : Type} [ICacheable T] (c : Cache T) (style : T) :
    Cache T × T × List (CacheEvent T) :=
  let i := ICacheable.id style
  let count := countOf c.cacheCount i
  let counts := assocSet c.cacheCount i (count + 1)
  if count = 0 then
    ({ cache := assocSet c.cache i style, cacheCount := counts }, style, [CacheEvent.add style])
  else
    ({ cache := c.cache, cacheCount := counts }, (assocGet c.cache i).getD style, [])

/-- `remove (style)`: no-op when the count is not positive; otherwise
decrement, and on a 1 → 0 transition delete the entry and emit `remove`. -/
def Cache.remove {T : Type} [ICacheable T] (c : Cache T) (style : T) :
    Cache T × List (CacheEvent T) :=
  let i := ICacheable.id style
  let count := countOf c.cacheCount i
  if 0 < count then
    let counts := assocSet c.cacheCount i (count - 1)
    if count = 1 then
      ({ cache := assocDelete c.cache i, cacheCount := counts }, [CacheEvent.remove style])
    else
      ({ cache := c.cache, cacheCount := counts }, [])
  else
    (c, [])

/-- Cache states reachable from a fresh instance by any sequence of
`add`/`remove` calls. -/
inductive Cache.Reachable {T : Type} [ICacheable T] : Cache T → Prop where
  | init : Cache.Reachable {}
  | add (c : Cache T) (x : T) : Cache.Reachable c → Cache.Reachable (c.add x).1
  | remove (c : Cache T) (x : T) : Cache.Reachable c → Cache.Reachable (c.remove x).1

/-- The structural invariant of a cache: keys are unbound or bound once,
an entry is stored under its own id, and a key is stored iff its
reference count is positive. -/
def Cache.Inv {T : Type} [ICacheable T] (c : Cache T) : Prop :=
  (c.cache.map Prod.fst).Nodup ∧
  (∀ p ∈ c.cache, ICacheable.id p.2 = p.1) ∧
  (∀ i, (assocGet c.cache i).isSome ↔ 0 < countOf c.cacheCount i)

/-- A concrete cacheable type used to exercise the cache theorems. -/
structure DemoItem : Type where
  id : String
  payload : Nat
deriving DecidableEq

instance : ICacheable DemoItem :=
  ⟨DemoItem.id⟩

/-! ## Association-list lemmas -/

theorem assocGet_assocSet_self {α : Type} (l : List (String × α)) (k : String) (v : α) :
    assocGet (assocSet l k v) k = some v := by
  induction l with
  | nil => simp [assocSet, assocGet]
  | cons p rest ih =>
    by_cases h : p.1 = k
    · simp [assocSet, h, assocGet]
    · simp [assocSet, assocGet, h, ih]

theorem assocGet_assocSet_ne {α : Type} (l : List (String × α)) (k j : String) (v : α)
    (h : j ≠ k) : assocGet (assocSet l k v) j = assocGet l j := by
  have hk : k ≠ j := fun hk => h hk.symm
  induction l with
  | nil => simp [assocSet, assocGet, hk]
  | cons p rest ih =>
    by_cases hp : p.1 = k
    · subst hp
      simp [assocSet, assocGet, hk]
    · simp [assocSet, assocGet, hp, ih]

theorem assocGet_assocDelete_ne {α : Type} (l : List (String × α)) (k j : String)
    (h : j ≠ k) : assocGet (assocDelete l k) j = assocGet l j := by
  have hk : k ≠ j := fun hk => h hk.symm
  induction l with
  | nil => simp [assocDelete]
  | cons p rest ih =>
    by_cases hp : p.1 = k
    · subst hp
      simp [assocDelete, assocGet, hk]
    · simp [assocDelete, assocGet, hp, ih]

theorem mem_keys_assocSet {α : Type} {l : List (String × α)} {k j : String} {v : α}
    (h : j ∈ (assocSet l k v).map Prod.fst) : j ∈ l.map Prod.fst ∨ j = k := by
  induction l with
  | nil =>
    simp only [assocSet, List.map_cons, List.map_nil, List.mem_singleton] at h
    exact Or.inr h
  | cons p rest ih =>
    by_cases hp : p.1 = k
    · simp only [assocSet, if_pos hp, List.map_cons, List.mem_cons] at h
      rcases h with h | h
      · exact Or.inr h
      · exact Or.inl (List.mem_cons_of_mem _ h)
    · simp only [assocSet, if_neg hp, List.map_cons, List.mem_cons] at h
      rcases h with h | h
      · exact Or.inl (List.mem_cons.mpr (Or.inl h))
      · rcases ih h with h | h
        · exact Or.inl (List.mem_cons_of_mem _ h)
        · exact Or.inr h

theorem keys_nodup_assocSet {α : Type} {l : List (String × α)} (k : String) (v : α)
    (h : (l.map Prod.fst).Nodup) : ((assocSet l k v).map Prod.fst).Nodup := by
  induction l with
  | nil => simp [assocSet]
  | cons p rest ih =>
    rw [List.map_cons, List.nodup_cons] at h
    by_cases hp : p.1 = k
    · simp only [assocSet, if_pos hp, List.map_cons, List.nodup_cons]
      exact ⟨hp ▸ h.1, h.2⟩
    · simp only [assocSet, if_neg hp, List.map_cons, List.nodup_cons]
      refine ⟨fun hmem => ?_, ih h.2⟩
      rcases mem_keys_assocSet hmem with hmem | hmem
      · exact h.1 hmem
      · exact hp hmem

theorem mem_of_mem_assocSet {α : Type} {l : List (String × α)} {k : String} {v : α}
    {p : String × α} (h : p ∈ assocSet l k v) : p ∈ l ∨ p = (k, v) := by
  induction l with
  | nil =>
    simp only [assocSet, List.mem_singleton] at h
    exact Or.inr h
  | cons q rest ih =>
    by_cases hq : q.1 = k
    · simp only [assocSet, if_pos hq, List.mem_cons] at h
      rcases h with h | h
      · exact Or.inr h
      · exact Or.inl (List.mem_cons_of_mem _ h)
    · simp only [assocSet, if_neg hq, List.mem_cons] at h
      rcases h with h | h
      · exact Or.inl (List.mem_cons.mpr (Or.inl h))
      · rcases ih h with h | h
        · exact Or.inl (List.mem_cons_of_mem _ h)
        · exact Or.inr h

theorem mem_of_mem_assocDelete {α : Type} {l : List (String × α)} {k : String}
    {p : String × α} (h : p ∈ assocDelete l k) : p ∈ l := by
  induction l with
  | nil =>
    simp only [assocDelete] at h
    exact absurd h (List.not_mem_nil p)
  | cons q rest ih =>
    by_cases hq : q.1 = k
    · simp only [assocDelete, if_pos hq] at h
      exact List.mem_cons_of_mem _ h
    · simp only [assocDelete, if_neg hq, List.mem_cons] at h
      rcases h with h | h
      · exact List.mem_cons.mpr (Or.inl h)
      · exact List.mem_cons_of_mem _ (ih h)

theorem keys_nodup_assocDelete {α : Type} {l : List (String × α)} (k : String)
    (h : (l.map Prod.fst).Nodup) : ((assocDelete l k).map Prod.fst).Nodup := by
  induction l with
  | nil => simp [assocDelete]
  | cons p rest ih =>
    rw [List.map_cons, List.nodup_cons] at h
    by_cases hp : p.1 = k
    · simp only [assocDelete, if_pos hp]
      exact h.2
    · simp only [assocDelete, if_neg hp, List.map_cons, List.nodup_cons]
      refine ⟨fun hmem => ?_, ih h.2⟩
      rcases List.mem_map.mp hmem with ⟨q, hq, hq1⟩
      exact h.1 (List.mem_map.mpr ⟨q, mem_of_mem_assocDelete hq, hq1⟩)

theorem assocGet_isSome_of_mem {α : Type} {l : List (String × α)} {p : String × α}
    (h : p ∈ l) : (assocGet l p.1).isSome := by
  induction l with
  | nil => exact absurd h (List.not_mem_nil p)
  | cons q rest ih =>
    rw [assocGet]
    by_cases hq : q.1 = p.1
    · rw [if_pos hq]
      rfl
    · rw [if_neg hq]
      rcases List.mem_cons.mp h with h | h
      · exact absurd (h ▸ rfl) hq
      · exact ih h

theorem assocGet_assocDelete_self {α : Type} {l : List (String × α)} {k : String}
    (h : (l.map Prod.fst).Nodup) : assocGet (assocDelete l k) k = none := by
  induction l with
  | nil => simp [assocDelete, assocGet]
  | cons p rest ih =>
    rw [List.map_cons, List.nodup_cons] at h
    by_cases hp : p.1 = k
    · simp only [assocDelete, if_pos hp]
      subst hp
      cases hl : assocGet rest p.1 with
      | none => rfl
      | some v =>
        exfalso
        apply h.1
        have : ∃ q ∈ rest, q.1 = p.1 := by
          clear h ih
          induction rest with
          | nil => simp [assocGet] at hl
          | cons q rs ihr =>
            rw [assocGet] at hl
            by_cases hq : q.1 = p.1
            · exact ⟨q, List.mem_cons_self _ _, hq⟩
            · rw [if_neg hq] at hl
              obtain ⟨w, hw, hw1⟩ := ihr hl
              exact ⟨w, List.mem_cons_of_mem _ hw, hw1⟩
        obtain ⟨q, hq, hq1⟩ := this
        exact List.mem_map.mpr ⟨q, hq, hq1⟩
    · simp [assocDelete, assocGet, hp, ih h.2]

theorem countOf_assocSet_self (counts : List (String × Nat)) (k : String) (n : Nat) :
    countOf (assocSet counts k n) k = n := by
  simp [countOf, assocGet_assocSet_self]

theorem countOf_assocSet_ne (counts : List (String × Nat)) (k j : String) (n : Nat)
    (h : j ≠ k) : countOf (assocSet counts k n) j = countOf counts j := by
  rw [countOf, assocGet_assocSet_ne _ _ _ _ h, countOf]

/-! ## The cache invariant holds in every reachable state -/

theorem Cache.Inv.init {T : Type} [ICacheable T] : Cache.Inv (T := T) {} := by
  refine ⟨List.nodup_nil, ?_, ?_⟩
  · intro p hp
    simp at hp
  · intro i
    simp [countOf, assocGet]

theorem Cache.Inv.add {T : Type} [ICacheable T] {c : Cache T} (h : c.Inv) (x : T) :
    (c.add x).1.Inv := by
  obtain ⟨hnd, hid, hiff⟩ := h
  rw [Cache.add]
  by_cases hz : countOf c.cacheCount (ICacheable.id x) = 0
  · rw [if_pos hz]
    refine ⟨keys_nodup_assocSet _ _ hnd, ?_, ?_⟩
    · intro p hp
      rcases mem_of_mem_assocSet hp with hp | hp
      · exact hid p hp
      · rw [hp]
    · intro i
      by_cases hik : i = ICacheable.id x
      · subst hik
        rw [assocGet_assocSet_self, countOf_assocSet_self]
        simp
      · rw [assocGet_assocSet_ne _ _ _ _ hik, countOf_assocSet_ne _ _ _ _ hik]
        exact hiff i
  · rw [if_neg hz]
    refine ⟨hnd, hid, ?_⟩
    intro i
    by_cases hik : i = ICacheable.id x
    · subst hik
      rw [countOf_assocSet_self]
      constructor
      · intro _
        omega
      · intro _
        exact (hiff _).mpr (Nat.pos_of_ne_zero hz)
    · rw [countOf_assocSet_ne _ _ _ _ hik]
      exact hiff i

theorem Cache.Inv.remove {T : Type} [ICacheable T] {c : Cache T} (h : c.Inv) (x : T) :
    (c.remove x).1.Inv := by
  obtain ⟨hnd, hid, hiff⟩ := h
  rw [Cache.remove]
  by_cases hz : 0 < countOf c.cacheCount (ICacheable.id x)
  · rw [if_pos hz]
    by_cases h1 : countOf c.cacheCount (ICacheable.id x) = 1
    · rw [if_pos h1]
      refine ⟨keys_nodup_assocDelete _ hnd, ?_, ?_⟩
      · intro p hp
        exact hid p (mem_of_mem_assocDelete hp)
      · intro i
        by_cases hik : i = ICacheable.id x
        · subst hik
          rw [assocGet_assocDelete_self hnd, countOf_assocSet_self]
          simp [h1]
        · rw [assocGet_assocDelete_ne _ _ _ hik, countOf_assocSet_ne _ _ _ _ hik]
          exact hiff i
    · rw [if_neg h1]
      refine ⟨hnd, hid, ?_⟩
      intro i
      by_cases hik : i = ICacheable.id x
      · subst hik
        rw [countOf_assocSet_self]
        constructor
        · intro _
          omega
        · intro _
          exact (hiff _).mpr hz
      · rw [countOf_assocSet_ne _ _ _ _ hik]
        exact hiff i
  · rw [if_neg hz]
    exact ⟨hnd, hid, hiff⟩

theorem Cache.Reachable.inv {T : Type} [ICacheable T] {c : Cache T}
    (h : c.Reachable) : c.Inv := by
  induction h with
  | init => exact Cache.Inv.init
  | add c x _ ih => exact ih.add x
  | remove c x _ ih => exact ih.remove x

/-! ## Further definitions used by the claims -/

/-- Claim-side hyphenation, in one pass over the characters: a dash is
inserted before each ASCII uppercase letter and the letter is lowercased;
all other characters pass through. -/
def specHyphChars : List Char → List Char
  | [] => []
  | c :: cs =>
    if isAsciiUpper c then '-' :: jsToLower c :: specHyphChars cs
    else c :: specHyphChars cs

/-- Numeric value of one base-32 digit character. -/
def decodeDigit32 (c : Char) : Nat :=
  if 97 ≤ c.toNat then c.toNat - 87 else c.toNat - 48

/-- Numeric value of a base-32 digit string, most significant digit first. -/
def decodeBase32 (l : List Char) : Nat :=
  l.foldl (fun a c => a * 32 + decodeDigit32 c) 0

/-- Whether `pat` occurs at the very start of `l`. -/
def leadsWith : List Char → List Char → Bool
  | [], _ => true
  | _ :: _, [] => false
  | a :: as, b :: bs => a = b && leadsWith as bs

/-- Number of positions of `l` at which `pat` occurs as a contiguous run. -/
def countSub (pat : List Char) : List Char → Nat
  | [] => 0
  | c :: rest => (if leadsWith pat (c :: rest) then 1 else 0) + countSub pat rest

mutual

/-- Key-sort every layer of a user style tree (entry list part). -/
def normalizeEntries : List (String × UserValue) → List (String × UserValue)
  | [] => []
  | (k, v) :: rest => (k, normalizeValue v) :: normalizeEntries rest

/-- Key-sort every layer of a user style tree (value part). -/
def normalizeValue : UserValue → UserValue
  | .scalar v => .scalar v
  | .arr vs => .arr vs
  | .nested ts => .nested (sortPairs (normalizeEntries ts))

end

/-- The normalized (recursively key-sorted) form of a user style tree:
two style trees have "equal normalized content" in the sense of the spec
exactly when their normalized forms coincide. -/
def normalizeStyles (styles : UserStyles) : UserStyles :=
  sortPairs (normalizeEntries styles)

theorem normalizeEntries_nil : normalizeEntries [] = [] := rfl

theorem normalizeEntries_cons (k : String) (v : UserValue)
    (rest : List (String × UserValue)) :
    normalizeEntries ((k, v) :: rest) = (k, normalizeValue v) :: normalizeEntries rest := rfl

theorem normalizeValue_scalar (v : Option String) :
    normalizeValue (UserValue.scalar v) = UserValue.scalar v := rfl

theorem normalizeValue_arr (vs : List (Option String)) :
    normalizeValue (UserValue.arr vs) = UserValue.arr vs := rfl

theorem normalizeValue_nested (ts : List (String × UserValue)) :
    normalizeValue (UserValue.nested ts) =
      UserValue.nested (sortPairs (normalizeEntries ts)) := rfl

theorem categorize_props_scalar (key : String) (v : Option String)
    (rest : List (String × UserValue)) :
    (categorize ((key, UserValue.scalar v) :: rest)).properties =
      (hyphenate (jsTrim key), PropValue.scalar v) :: (categorize rest).properties := rfl

theorem categorize_props_arr (key : String) (vs : List (Option String))
    (rest : List (String × UserValue)) :
    (categorize ((key, UserValue.arr vs) :: rest)).properties =
      (hyphenate (jsTrim key), PropValue.arr vs) :: (categorize rest).properties := rfl

theorem categorize_props_nested (key : String) (ts : List (String × UserValue))
    (rest : List (String × UserValue)) :
    (categorize ((key, UserValue.nested ts) :: rest)).properties =
      (categorize rest).properties := rfl

theorem categorize_nested_scalar (key : String) (v : Option String)
    (rest : List (String × UserValue)) :
    (categorize ((key, UserValue.scalar v) :: rest)).nestedStyles =
      (categorize rest).nestedStyles := rfl

theorem categorize_nested_arr (key : String) (vs : List (Option String))
    (rest : List (String × UserValue)) :
    (categorize ((key, UserValue.arr vs) :: rest)).nestedStyles =
      (categorize rest).nestedStyles := rfl

theorem categorize_nested_nested (key : String) (ts : List (String × UserValue))
    (rest : List (String × UserValue)) :
    (categorize ((key, UserValue.nested ts) :: rest)).nestedStyles =
      (jsTrim key, ts) :: (categorize rest).nestedStyles := rfl

/-! ## Support lemmas for the claims -/

theorem stringFoldlAppend (l : List String) (init : String) :
    l.foldl (fun r s => r ++ s) init = init ++ l.foldl (fun r s => r ++ s) "" := by
  induction l generalizing init with
  | nil => simp
  | cons b bs ih =>
    rw [List.foldl_cons, List.foldl_cons, ih (init ++ b), ih ("" ++ b)]
    rw [String.empty_append, String.append_assoc]

theorem stringJoin_cons (a : String) (l : List String) :
    String.join (a :: l) = a ++ String.join l := by
  rw [String.join, String.join, List.foldl_cons, stringFoldlAppend, String.empty_append]

theorem mem_of_assocGet_eq_some {α : Type} {l : List (String × α)} {k : String} {v : α}
    (h : assocGet l k = some v) : (k, v) ∈ l := by
  induction l with
  | nil => simp [assocGet] at h
  | cons p rest ih =>
    rw [assocGet] at h
    by_cases hp : p.1 = k
    · rw [if_pos hp] at h
      have : p = (k, v) := by
        obtain ⟨p1, p2⟩ := p
        obtain rfl : p1 = k := hp
        obtain rfl : p2 = v := by injection h
        rfl
      exact this ▸ List.mem_cons_self _ _
    · rw [if_neg hp] at h
      exact List.mem_cons_of_mem _ (ih h)

/-! ### Hyphenation: the two-phase regex pipeline equals the one-pass form -/

theorem msDash_eq_ite (l : List Char) :
    msDash l = if l.take 3 = ['m', 's', '-'] then '-' :: l else l := by
  rw [msDash.eq_def]
  split
  · simp
  · rename_i h
    rw [if_neg]
    intro hc
    have hl : l = 'm' :: 's' :: '-' :: l.drop 3 := by
      conv_lhs => rw [← List.take_append_drop 3 l]
      rw [hc]
      rfl
    exact h (l.drop 3) hl

theorem jsToLower_of_not_upper {c : Char} (h : ¬ isAsciiUpper c) : jsToLower c = c := by
  rw [jsToLower, if_neg h]

theorem map_jsToLower_dashify (l : List Char) :
    (dashify l).map jsToLower = specHyphChars l := by
  induction l with
  | nil => rfl
  | cons c cs ih =>
    by_cases hc : isAsciiUpper c
    · rw [dashify, if_pos hc, specHyphChars, if_pos hc, List.map_cons, List.map_cons, ih]
      rfl
    · rw [dashify, if_neg hc, specHyphChars, if_neg hc, List.map_cons, ih,
        jsToLower_of_not_upper hc]

theorem take3_map_jsToLower_dashify (l : List Char) :
    ((dashify l).map jsToLower).take 3 = ['m', 's', '-'] ↔
      (dashify l).take 3 = ['m', 's', '-'] := by
  match l with
  | [] => simp [dashify]
  | c1 :: l1 =>
    by_cases u1 : isAsciiUpper c1
    · rw [dashify, if_pos u1]
      simp [jsToLower_of_not_upper (show ¬ isAsciiUpper '-' by decide)]
    · rw [dashify, if_neg u1]
      by_cases h1 : c1 = 'm'
      · subst h1
        rw [List.map_cons, jsToLower_of_not_upper u1]
        match l1 with
        | [] => simp [dashify]
        | c2 :: l2 =>
          by_cases u2 : isAsciiUpper c2
          · rw [dashify, if_pos u2]
            simp [jsToLower_of_not_upper (show ¬ isAsciiUpper '-' by decide)]
          · rw [dashify, if_neg u2]
            by_cases h2 : c2 = 's'
            · subst h2
              rw [List.map_cons, jsToLower_of_not_upper u2]
              match l2 with
              | [] => simp [dashify]
              | c3 :: l3 =>
                by_cases u3 : isAsciiUpper c3
                · rw [dashify, if_pos u3]
                  simp [jsToLower_of_not_upper (show ¬ isAsciiUpper '-' by decide)]
                · rw [dashify, if_neg u3]
                  rw [List.map_cons, jsToLower_of_not_upper u3]
                  simp
            · have h2' : jsToLower c2 ≠ 's' := by
                rw [jsToLower_of_not_upper u2]
                exact h2
              simp [List.map_cons, h2, h2']
      · have h1' : jsToLower c1 ≠ 'm' := by
          rw [jsToLower_of_not_upper u1]
          exact h1
        simp [List.map_cons, h1, h1']

theorem map_jsToLower_msDash_dashify (l : List Char) :
    (msDash (dashify l)).map jsToLower = msDash ((dashify l).map jsToLower) := by
  rw [msDash_eq_ite (dashify l), msDash_eq_ite ((dashify l).map jsToLower)]
  by_cases h : (dashify l).take 3 = ['m', 's', '-']
  · rw [if_pos h, if_pos ((take3_map_jsToLower_dashify l).mpr h), List.map_cons,
      jsToLower_of_not_upper (show ¬ isAsciiUpper '-' by decide)]
  · rw [if_neg h, if_neg (fun hc => h ((take3_map_jsToLower_dashify l).mp hc))]

theorem getStylesList_eq_empty {sub : List (String × CNode)}
    (h : ∀ p ∈ sub, CNode.getStyles p.2 = "") : getStylesList sub = "" := by
  induction sub with
  | nil => rfl
  | cons p rest ih =>
    obtain ⟨k, n⟩ := p
    show CNode.getStyles n ++ getStylesList rest = ""
    rw [h (k, n) (List.mem_cons_self _ _), ih (fun q hq => h q (List.mem_cons_of_mem _ hq))]
    rfl

/-! ## The claims -/

/-- **C4**: registering
`{'@media (min-width: 500px)': {color:'blue'}, color:'red'}` on a fresh
root returns a class name `c` such that the rendered CSS is the top-level
rule `.c{color:red;}` followed by
`@media (min-width: 500px){.c{color:blue;}}`: the at-rule body is
compiled with the same selector and its block appears after the top-level
rule even though the at-rule key sorts before `color`. -/
theorem register_at_rule_hoisting :
    keyLt "@media (min-width: 500px)" "color" = true ∧
    (let r := create.registerStyle
      [("@media (min-width: 500px)", UserValue.nested [("color", UserValue.scalar (some "blue"))]),
       ("color", UserValue.scalar (some "red"))]
     r.1.getStyles =
       "." ++ r.2 ++ "\x7bcolor:red;\x7d@media (min-width: 500px)\x7b." ++ r.2 ++ "\x7bcolor:blue;\x7d\x7d") := by
  exact ⟨by decide, by decide⟩

/-- **C5**: a `Style` node with empty declaration text renders as the
empty string even when selectors are present; otherwise it renders its
selectors joined by commas followed by the declarations in braces.
Registering `{color:'red', '.foo': {color:'red'}}` produces one `Style`
shared by both layers, rendered with the two comma-joined selectors. -/
theorem style_render_selectors :
    (∀ sc scc, (CNode.styleNode "" sc scc).getStyles = "") ∧
    (∀ st sc scc, st ≠ "" → (CNode.styleNode st sc scc).getStyles =
      String.intercalate "," (sc.map Prod.snd) ++ "\x7b" ++ st ++ "\x7d") ∧
    (let r := create.registerStyle
      [("color", UserValue.scalar (some "red")),
       (".foo", UserValue.nested [("color", UserValue.scalar (some "red"))])]
     r.1.getStyles = "." ++ r.2 ++ ",." ++ r.2 ++ " .foo\x7bcolor:red;\x7d" ∧
     r.1.cache.length = 1) := by
  refine ⟨fun sc scc => rfl, ?_, by decide⟩
  intro st sc scc h
  show (if st = "" then "" else String.intercalate "," (sc.map Prod.snd) ++ "\x7b" ++ st ++ "\x7d") = _
  rw [if_neg h]

/-- **C5 witness**: the nonempty-declaration branch at a concrete node. -/
theorem style_render_selectors_witness :
    ("color:red;" ≠ "") ∧
    (CNode.styleNode "color:red;" [("sx", ".a"), ("sy", ".a .foo")] []).getStyles =
      String.intercalate "," ([("sx", ".a"), ("sy", ".a .foo")].map Prod.snd) ++
        "\x7b" ++ "color:red;" ++ "\x7d" :=
  ⟨by decide, style_render_selectors.2.1 "color:red;" [("sx", ".a"), ("sy", ".a .foo")] []
    (by decide)⟩

/-- **C6**: stringification of one property: a `null`/absent value
contributes no output, an array value expands to one declaration per
element in array order with no deduplication, and any other value yields
a single `name:value;` declaration; the fallback-chain example renders
two `background:` declarations in array order. -/
theorem stringify_property_values :
    (∀ name : String, styleToString name (PropValue.scalar none) = "") ∧
    (∀ name v, styleToString name (PropValue.scalar (some v)) = name ++ ":" ++ v ++ ";") ∧
    (∀ name v vs, styleToString name (PropValue.arr (v :: vs)) =
      styleStringToString name v ++ styleToString name (PropValue.arr vs)) ∧
    (∀ name a, styleToString name (PropValue.arr [a, a]) =
      styleStringToString name a ++ styleStringToString name a) ∧
    (let r := create.registerStyle
      [("background", UserValue.arr
        [some "red", some "linear-gradient(to right, red 0%, green 100%)"])]
     r.1.getStyles = "." ++ r.2 ++
       "\x7bbackground:red;background:linear-gradient(to right, red 0%, green 100%);\x7d") := by
  refine ⟨fun name => rfl, fun name v => rfl, ?_, ?_, by decide⟩
  · intro name v vs
    show String.join _ = _
    rw [List.map_cons, stringJoin_cons]
    rfl
  · intro name a
    show String.join _ = _
    rw [List.map_cons, List.map_cons, List.map_nil, stringJoin_cons, stringJoin_cons,
      String.join, List.foldl_nil, String.append_empty]

/-- **C7**: hyphenation inserts a dash before each uppercase letter and
lowercases the result, and a leading `ms` segment receives a leading
dash; hence `backgroundColor` compiles to the property name
`background-color` and `{backgroundColor:'red'}` renders
`background-color:red;`. -/
theorem hyphenate_spec :
    (∀ name : String, hyphenate name = String.mk (msDash (specHyphChars name.data))) ∧
    hyphenate "backgroundColor" = "background-color" ∧
    (let r := create.registerStyle [("backgroundColor", UserValue.scalar (some "red"))]
     r.1.getStyles = "." ++ r.2 ++ "\x7bbackground-color:red;\x7d") := by
  refine ⟨?_, by decide, by decide⟩
  intro name
  rw [hyphenate, map_jsToLower_msDash_dashify, map_jsToLower_dashify]

/-- **C9**: node identities are tagged by node type — `Selector` ids
start with `s`, `Style` ids with `n`, `AtRule` ids with `a`, each
followed by the base-32 content hash — so a `Style` and an `AtRule` can
never share a cache slot, whatever their content hashes. -/
theorem node_id_kind_tags :
    (∀ s, (selectorId s).data.head? = some 's') ∧
    (∀ st, (styleId st).data.head? = some 'n') ∧
    (∀ r, (atRuleId r).data.head? = some 'a') ∧
    (∀ s, selectorId s = "s" ++ hashString s) ∧
    (∀ st, styleId st = "n" ++ hashString st) ∧
    (∀ r, atRuleId r = "a" ++ hashString r) ∧
    (∀ st sc scc, (CNode.styleNode st sc scc).id = styleId st) ∧
    (∀ r sub subc, (CNode.atRuleNode r sub subc).id = atRuleId r) ∧
    (∀ st r, styleId st ≠ atRuleId r) := by
  refine ⟨fun s => rfl, fun st => rfl, fun r => rfl, fun s => rfl, fun st => rfl, fun r => rfl,
    fun _ _ _ => rfl, fun _ _ _ => rfl, ?_⟩
  intro st r h
  have h1 : (styleId st).data.head? = some 'n' := rfl
  rw [h] at h1
  have h2 : (atRuleId r).data.head? = some 'a' := rfl
  rw [h1] at h2
  exact absurd h2 (by decide)

/-- **C10**: an `AtRule` always renders its rule text with its children's
concatenated rendering wrapped in braces, even when every child renders
to the empty string; a subtree whose only `Style` has no declarations
renders as `rule{}` rather than as the empty string. -/
theorem atRule_always_wraps :
    (∀ rule sub subCounts, (CNode.atRuleNode rule sub subCounts).getStyles =
      rule ++ "\x7b" ++ getStylesList sub ++ "\x7d") ∧
    (∀ rule sub subCounts, (∀ p ∈ sub, CNode.getStyles p.2 = "") →
      (CNode.atRuleNode rule sub subCounts).getStyles = rule ++ "\x7b" ++ "" ++ "\x7d") ∧
    (let r := create.registerStyle [("@media (min-width: 500px)", UserValue.nested [])]
     r.1.getStyles = "@media (min-width: 500px)\x7b\x7d") := by
  refine ⟨fun rule sub subCounts => rfl, ?_, by decide⟩
  intro rule sub subCounts h
  show rule ++ "\x7b" ++ getStylesList sub ++ "\x7d" = _
  rw [getStylesList_eq_empty h]

/-- **C10 witness**: a concrete at-rule whose only child is a `Style`
with zero declaration characters still renders as the wrapped block. -/
theorem atRule_always_wraps_witness :
    (∀ p ∈ [("nx", CNode.styleNode "" [("sx", ".a")] [])],
      CNode.getStyles (Prod.snd p) = "") ∧
    (CNode.atRuleNode "@media print" [("nx", CNode.styleNode "" [("sx", ".a")] [])] []).getStyles =
      "@media print" ++ "\x7b" ++ "" ++ "\x7d" := by
  have hc : ∀ p ∈ [("nx", CNode.styleNode "" [("sx", ".a")] [])],
      CNode.getStyles (Prod.snd p) = "" := by
    intro p hp
    rw [List.mem_singleton] at hp
    rw [hp]
    rfl
  exact ⟨hc, atRule_always_wraps.2.1 "@media print" _ [] hc⟩

/-- **C2**: in every reachable cache state, an entry is present exactly
when its reference count is positive; a 0 → 1 `add` emits exactly one
`add` event, a 1 → 0 `remove` deletes the entry and emits exactly one
`remove` event, any other `add` emits nothing, a `remove` above count 1
only decrements, and a `remove` at count 0 changes nothing and emits
nothing. -/
theorem cache_entry_iff_refcount {T : Type} [ICacheable T] (c : Cache T) (x : T)
    (hr : c.Reachable) :
    (c.has x = true ↔ (assocGet c.cache (ICacheable.id x)).isSome) ∧
    ((∃ y ∈ c.values, ICacheable.id y = ICacheable.id x) ↔ 0 < c.count x) ∧
    (c.count x = 0 → (c.add x).2.2 = [CacheEvent.add x] ∧ (c.add x).1.count x = 1) ∧
    (0 < c.count x → (c.add x).2.2 = []) ∧
    (c.count x = 1 → (c.remove x).2 = [CacheEvent.remove x] ∧
      assocGet (c.remove x).1.cache (ICacheable.id x) = none ∧ (c.remove x).1.count x = 0) ∧
    (2 ≤ c.count x → (c.remove x).2 = [] ∧ (c.remove x).1.cache = c.cache) ∧
    (c.count x = 0 → c.remove x = (c, [])) := by
  obtain ⟨hnd, hid, hiff⟩ := hr.inv
  refine ⟨?_, ?_, ?_, ?_, ?_, ?_, ?_⟩
  · rw [Cache.has, decide_eq_true_iff]
    exact (hiff (ICacheable.id x)).symm
  · constructor
    · rintro ⟨y, hy, hyid⟩
      obtain ⟨p, hp, hp2⟩ := List.mem_map.mp hy
      have hkey : p.1 = ICacheable.id x := by
        rw [← hid p hp, hp2, hyid]
      have := assocGet_isSome_of_mem hp
      rw [hkey] at this
      exact (hiff _).mp this
    · intro hpos
      obtain ⟨v, hv⟩ := Option.isSome_iff_exists.mp ((hiff _).mpr hpos)
      exact ⟨v, List.mem_map.mpr ⟨_, mem_of_assocGet_eq_some hv, rfl⟩,
        hid _ (mem_of_assocGet_eq_some hv)⟩
  · intro h0
    rw [Cache.count] at h0
    rw [Cache.add, if_pos h0]
    exact ⟨rfl, by rw [Cache.count, countOf_assocSet_self, h0]⟩
  · intro hpos
    rw [Cache.count] at hpos
    rw [Cache.add, if_neg (by omega)]
  · intro h1
    rw [Cache.count] at h1
    rw [Cache.remove, if_pos (by omega), if_pos h1]
    exact ⟨rfl, assocGet_assocDelete_self hnd,
      by rw [Cache.count, countOf_assocSet_self, h1]⟩
  · intro h2
    rw [Cache.count] at h2
    rw [Cache.remove, if_pos (by omega), if_neg (by omega)]
    exact ⟨rfl, rfl⟩
  · intro h0
    rw [Cache.count] at h0
    rw [Cache.remove, if_neg (by omega)]

/-- **C2 witness**: the invariant at the fresh cache. -/
theorem cache_entry_iff_refcount_witness :
    Cache.Reachable ({} : Cache DemoItem) ∧
    ((({} : Cache DemoItem).has ⟨"a", 1⟩ = true ↔
        (assocGet ({} : Cache DemoItem).cache (ICacheable.id (⟨"a", 1⟩ : DemoItem))).isSome) ∧
      ((∃ y ∈ ({} : Cache DemoItem).values,
          ICacheable.id y = ICacheable.id (⟨"a", 1⟩ : DemoItem)) ↔
        0 < ({} : Cache DemoItem).count ⟨"a", 1⟩) ∧
      (({} : Cache DemoItem).count ⟨"a", 1⟩ = 0 →
        (({} : Cache DemoItem).add ⟨"a", 1⟩).2.2 = [CacheEvent.add ⟨"a", 1⟩] ∧
        (({} : Cache DemoItem).add ⟨"a", 1⟩).1.count ⟨"a", 1⟩ = 1) ∧
      (0 < ({} : Cache DemoItem).count ⟨"a", 1⟩ →
        (({} : Cache DemoItem).add ⟨"a", 1⟩).2.2 = []) ∧
      (({} : Cache DemoItem).count ⟨"a", 1⟩ = 1 →
        (({} : Cache DemoItem).remove ⟨"a", 1⟩).2 = [CacheEvent.remove ⟨"a", 1⟩] ∧
        assocGet (({} : Cache DemoItem).remove ⟨"a", 1⟩).1.cache
          (ICacheable.id (⟨"a", 1⟩ : DemoItem)) = none ∧
        (({} : Cache DemoItem).remove ⟨"a", 1⟩).1.count ⟨"a", 1⟩ = 0) ∧
      (2 ≤ ({} : Cache DemoItem).count ⟨"a", 1⟩ →
        (({} : Cache DemoItem).remove ⟨"a", 1⟩).2 = [] ∧
        (({} : Cache DemoItem).remove ⟨"a", 1⟩).1.cache = ({} : Cache DemoItem).cache) ∧
      (({} : Cache DemoItem).count ⟨"a", 1⟩ = 0 →
        ({} : Cache DemoItem).remove ⟨"a", 1⟩ = ({}, []))) :=
  ⟨Cache.Reachable.init, cache_entry_iff_refcount {} ⟨"a", 1⟩ Cache.Reachable.init⟩

/-- **C3**: on a cache miss, `add` stores the argument with count 1,
emits one `add` event and returns the argument; on a hit, `add` only
increments the count, emits nothing and returns the previously stored
instance. -/
theorem cache_add_returns_canonical {T : Type} [ICacheable T] (c : Cache T) (x : T)
    (hr : c.Reachable) :
    (c.count x = 0 →
      (c.add x).2.1 = x ∧
      assocGet (c.add x).1.cache (ICacheable.id x) = some x ∧
      (c.add x).1.count x = 1 ∧
      (c.add x).2.2 = [CacheEvent.add x]) ∧
    (0 < c.count x →
      ∃ y, assocGet c.cache (ICacheable.id x) = some y ∧
        (c.add x).2.1 = y ∧
        (c.add x).1.cache = c.cache ∧
        (c.add x).1.count x = c.count x + 1 ∧
        (c.add x).2.2 = []) := by
  obtain ⟨hnd, hid, hiff⟩ := hr.inv
  constructor
  · intro h0
    rw [Cache.count] at h0
    rw [Cache.add, if_pos h0]
    refine ⟨rfl, assocGet_assocSet_self _ _ _, ?_, rfl⟩
    rw [Cache.count, countOf_assocSet_self, h0]
  · intro hpos
    rw [Cache.count] at hpos
    obtain ⟨y, hy⟩ := Option.isSome_iff_exists.mp ((hiff _).mpr hpos)
    refine ⟨y, hy, ?_, ?_, ?_, ?_⟩
    · rw [Cache.add, if_neg (by omega)]
      simp [hy]
    · rw [Cache.add, if_neg (by omega)]
    · rw [Cache.add, if_neg (by omega)]
      show countOf (assocSet c.cacheCount _ _) _ = _
      rw [countOf_assocSet_self, Cache.count]
    · rw [Cache.add, if_neg (by omega)]

/-- **C3 witness**: miss-then-hit behaviour on a concrete cache. -/
theorem cache_add_returns_canonical_witness :
    Cache.Reachable ((({} : Cache DemoItem).add ⟨"a", 1⟩).1) ∧
    (((({} : Cache DemoItem).add ⟨"a", 1⟩).1.count ⟨"a", 2⟩ = 0 →
      (((({} : Cache DemoItem).add ⟨"a", 1⟩).1.add ⟨"a", 2⟩)).2.1 = ⟨"a", 2⟩ ∧
      assocGet ((((({} : Cache DemoItem).add ⟨"a", 1⟩).1.add ⟨"a", 2⟩)).1.cache)
        (ICacheable.id (⟨"a", 2⟩ : DemoItem)) = some ⟨"a", 2⟩ ∧
      (((({} : Cache DemoItem).add ⟨"a", 1⟩).1.add ⟨"a", 2⟩)).1.count ⟨"a", 2⟩ = 1 ∧
      (((({} : Cache DemoItem).add ⟨"a", 1⟩).1.add ⟨"a", 2⟩)).2.2 =
        [CacheEvent.add ⟨"a", 2⟩]) ∧
    (0 < (({} : Cache DemoItem).add ⟨"a", 1⟩).1.count ⟨"a", 2⟩ →
      ∃ y, assocGet ((({} : Cache DemoItem).add ⟨"a", 1⟩).1.cache)
          (ICacheable.id (⟨"a", 2⟩ : DemoItem)) = some y ∧
        (((({} : Cache DemoItem).add ⟨"a", 1⟩).1.add ⟨"a", 2⟩)).2.1 = y ∧
        (((({} : Cache DemoItem).add ⟨"a", 1⟩).1.add ⟨"a", 2⟩)).1.cache =
          (({} : Cache DemoItem).add ⟨"a", 1⟩).1.cache ∧
        (((({} : Cache DemoItem).add ⟨"a", 1⟩).1.add ⟨"a", 2⟩)).1.count ⟨"a", 2⟩ =
          (({} : Cache DemoItem).add ⟨"a", 1⟩).1.count ⟨"a", 2⟩ + 1 ∧
        (((({} : Cache DemoItem).add ⟨"a", 1⟩).1.add ⟨"a", 2⟩)).2.2 = [])) :=
  ⟨Cache.Reachable.add _ _ Cache.Reachable.init,
    cache_add_returns_canonical ((({} : Cache DemoItem).add ⟨"a", 1⟩).1) ⟨"a", 2⟩
      (Cache.Reachable.add _ _ Cache.Reachable.init)⟩

/-! ## Hash support lemmas -/

theorem hashStep_lt (value c : Nat) : hashStep value c < UINT32 := by
  rw [hashStep]
  exact Nat.mod_lt _ (by decide)

theorem foldl_hashStep_lt (l : List Nat) (init : Nat) (h : init < UINT32) :
    l.foldl hashStep init < UINT32 := by
  induction l generalizing init with
  | nil => exact h
  | cons c cs ih => exact ih _ (hashStep_lt init c)

theorem decodeDigit32_digitChar32 {n : Nat} (h : n < 32) :
    decodeDigit32 (digitChar32 n) = n := by
  interval_cases n <;> decide

theorem decodeBase32_append_singleton (l : List Char) (c : Char) :
    decodeBase32 (l ++ [c]) = decodeBase32 l * 32 + decodeDigit32 c := by
  rw [decodeBase32, decodeBase32, List.foldl_append, List.foldl_cons, List.foldl_nil]

theorem decodeBase32_toBase32Aux : ∀ (fuel n : Nat), n < fuel →
    decodeBase32 (toBase32Aux fuel n) = n := by
  intro fuel
  induction fuel with
  | zero => intro n h; omega
  | succ fuel ih =>
    intro n h
    rw [toBase32Aux]
    by_cases h32 : n < 32
    · rw [if_pos h32, decodeBase32, List.foldl_cons, List.foldl_nil,
        decodeDigit32_digitChar32 h32]
      omega
    · rw [if_neg h32, decodeBase32_append_singleton,
        ih (n / 32) (by omega), decodeDigit32_digitChar32 (Nat.mod_lt _ (by omega))]
      omega

theorem stringData_append (a b : String) : (a ++ b).data = a.data ++ b.data := rfl

theorem hash_eq_none (s : String) :
    hash s none = ((s.data.map Char.toNat).foldl hashStep 2166136261) % UINT32 := rfl

theorem hash_eq_some_ne (s : String) (h : Nat) (hne : h ≠ 0) :
    hash s (some h) = ((s.data.map Char.toNat).foldl hashStep h) % UINT32 := by
  show ((s.data.map Char.toNat).foldl hashStep (if h = 0 then 2166136261 else h)) % UINT32 = _
  rw [if_neg hne]

/-- **C8**: the hash folds each character into a 32-bit accumulator by
XOR followed by adding the fixed combination of left-shifted copies
(equivalently, multiplying by the FNV prime 16777619 modulo `2 ^ 32`),
starting from seed `0x811c9dc5` when no prior hash (or a zero hash) is
supplied; the result is forced to an unsigned 32-bit value, a prior
hash's numeric result may be passed as the seed of the next call to chain
hashes, and the final value is rendered in base 32. -/
theorem hash_chaining_spec :
    (∀ s : String, hash s none = ((s.data.map Char.toNat).foldl hashStep 0x811c9dc5) % UINT32) ∧
    (∀ s : String, hash s (some 0) = hash s none) ∧
    (∀ (s : String) (h : Nat), h ≠ 0 →
      hash s (some h) = ((s.data.map Char.toNat).foldl hashStep h) % UINT32) ∧
    (∀ (s : String) seed, hash s seed < UINT32) ∧
    (∀ value c, hashStep value c = (((value % UINT32) ^^^ (c % UINT32)) * 16777619) % UINT32) ∧
    (∀ s1 s2 : String, hash s1 none ≠ 0 →
      hash (s1 ++ s2) none = hash s2 (some (hash s1 none))) ∧
    (∀ n, hashToString n = String.mk (toBase32 n)) ∧
    (∀ n, decodeBase32 (hashToString n).data = n) := by
  refine ⟨fun s => rfl, fun s => rfl, ?_, ?_, ?_, ?_, fun n => rfl, ?_⟩
  · exact hash_eq_some_ne
  · intro s seed
    show ((s.data.map Char.toNat).foldl hashStep
      (match seed with
        | none => 2166136261
        | some s => if s = 0 then 2166136261 else s)) % UINT32 < UINT32
    exact Nat.mod_lt _ (by decide)
  · intro value c
    simp only [hashStep, UINT32]
    generalize (value % 4294967296) ^^^ (c % 4294967296) = v
    omega
  · intro s1 s2 hne
    have hlt : (s1.data.map Char.toNat).foldl hashStep 2166136261 < UINT32 :=
      foldl_hashStep_lt _ _ (by decide)
    have h1 : hash s1 none = (s1.data.map Char.toNat).foldl hashStep 2166136261 :=
      Nat.mod_eq_of_lt hlt
    rw [h1, hash_eq_some_ne s2 _ (h1 ▸ hne), hash_eq_none,
      stringData_append, List.map_append, List.foldl_append]
  · intro n
    exact decodeBase32_toBase32Aux (n + 1) n (Nat.lt_succ_self n)

/-- **C8 witness**: a concrete chained hash with a nonzero first link. -/
theorem hash_chaining_spec_witness :
    (hash "a" none ≠ 0 ∧ hash ("a" ++ "b") none = hash "b" (some (hash "a" none))) ∧
    ((37 : Nat) ≠ 0 ∧
      hash "z" (some 37) = (("z".data.map Char.toNat).foldl hashStep 37) % UINT32) :=
  ⟨⟨by decide, hash_chaining_spec.2.2.2.2.2.1 "a" "b" (by decide)⟩,
    ⟨by decide, hash_chaining_spec.2.2.1 "z" 37 (by decide)⟩⟩

/-! ## Recurrence equations for the tree walk

The recursion bound in `stylizeFuel` is semantically inert: any
sufficiently large bound computes the same result, so `stylize` and
`stylizeList` satisfy the recurrence of the source code. -/

theorem ussize_insertPair (p : String × UserValue) (l : List (String × UserValue)) :
    ussize (insertPair p l) = 1 + p.2.usize + ussize l := by
  induction l with
  | nil => rfl
  | cons q rest ih =>
    rw [insertPair]
    by_cases h : keyLt q.1 p.1
    · rw [if_pos h]
      show 1 + q.2.usize + ussize (insertPair p rest) = _
      rw [ih]
      show _ = 1 + p.2.usize + (1 + q.2.usize + ussize rest)
      omega
    · rw [if_neg h]
      rfl

theorem ussize_sortPairs (l : List (String × UserValue)) :
    ussize (sortPairs l) = ussize l := by
  induction l with
  | nil => rfl
  | cons p rest ih =>
    rw [sortPairs, ussize_insertPair, ih]
    rfl

theorem uslSize_categorize_le (l : List (String × UserValue)) :
    uslSize (categorize l).nestedStyles ≤ ussize l := by
  induction l with
  | nil =>
    rw [categorize]
    exact Nat.le_refl _
  | cons p rest ih =>
    obtain ⟨key, value⟩ := p
    cases value with
    | nested styles =>
      show uslSize ((jsTrim key, styles) :: (categorize rest).nestedStyles) ≤
        1 + UserValue.usize (.nested styles) + ussize rest
      rw [uslSize, UserValue.usize]
      omega
    | scalar v =>
      show uslSize (categorize rest).nestedStyles ≤ 1 + UserValue.usize (.scalar v) + ussize rest
      rw [UserValue.usize]
      omega
    | arr vs =>
      show uslSize (categorize rest).nestedStyles ≤ 1 + UserValue.usize (.arr vs) + ussize rest
      rw [UserValue.usize]
      omega

theorem uslSize_nested_le (styles : UserStyles) :
    uslSize (parseUserStyles styles).nestedStyles ≤ ussize styles := by
  rw [parseUserStyles]
  calc uslSize (categorize (sortPairs styles)).nestedStyles
      ≤ ussize (sortPairs styles) := uslSize_categorize_le _
    _ = ussize styles := ussize_sortPairs _

theorem stylizeFuel_congr : ∀ r : Nat,
    (∀ fuel₁ fuel₂ cache counts styles sel path hsh insts,
      2 * ussize styles + 1 ≤ r → ussize styles < fuel₁ → ussize styles < fuel₂ →
      stylizeFuel fuel₁ cache counts styles sel path hsh insts =
        stylizeFuel fuel₂ cache counts styles sel path hsh insts) ∧
    (∀ fuel₁ fuel₂ cache counts l sel path hsh insts,
      2 * uslSize l ≤ r → uslSize l ≤ fuel₁ → uslSize l ≤ fuel₂ →
      stylizeListFuel fuel₁ cache counts l sel path hsh insts =
        stylizeListFuel fuel₂ cache counts l sel path hsh insts) := by
  intro r
  induction r using Nat.strong_induction_on with
  | _ r ih =>
    constructor
    · intro fuel₁ fuel₂ cache counts styles sel path hsh insts hr h₁ h₂
      obtain ⟨f₁, rfl⟩ : ∃ f, fuel₁ = f + 1 := ⟨fuel₁ - 1, by omega⟩
      obtain ⟨f₂, rfl⟩ : ∃ f, fuel₂ = f + 1 := ⟨fuel₂ - 1, by omega⟩
      rw [stylizeFuel, stylizeFuel]
      exact (ih (2 * uslSize (parseUserStyles styles).nestedStyles)
          (by have := uslSize_nested_le styles; omega)).2
        _ _ _ _ _ _ _ _ _ (Nat.le_refl _)
        (by have := uslSize_nested_le styles; omega)
        (by have := uslSize_nested_le styles; omega)
    · intro fuel₁ fuel₂ cache counts l sel path hsh insts hr h₁ h₂
      match l with
      | [] => rw [stylizeListFuel, stylizeListFuel]
      | (name, ts) :: rest =>
        rw [uslSize] at hr h₁ h₂
        obtain ⟨f₁, rfl⟩ : ∃ f, fuel₁ = f + 1 := ⟨fuel₁ - 1, by omega⟩
        obtain ⟨f₂, rfl⟩ : ∃ f, fuel₂ = f + 1 := ⟨fuel₂ - 1, by omega⟩
        rw [stylizeListFuel, stylizeListFuel]
        have hstyz : ∀ cache' counts' sel' path',
            stylizeFuel f₁ cache' counts' ts sel' path' hsh insts =
              stylizeFuel f₂ cache' counts' ts sel' path' hsh insts :=
          fun cache' counts' sel' path' =>
            (ih (2 * ussize ts + 1) (by omega)).1 _ _ _ _ _ _ _ _ _
              (Nat.le_refl _) (by omega) (by omega)
        have hlist : ∀ cache' counts' hsh' insts',
            stylizeListFuel f₁ cache' counts' rest sel path hsh' insts' =
              stylizeListFuel f₂ cache' counts' rest sel path hsh' insts' :=
          fun cache' counts' hsh' insts' =>
            (ih (2 * uslSize rest) (by omega)).2 _ _ _ _ _ _ _ _ _
              (Nat.le_refl _) (by omega) (by omega)
        by_cases hat : isAtRule name
        · simp only [if_pos hat]
          rw [hstyz, hlist]
        · simp only [if_neg hat]
          rw [hstyz, hlist]

theorem stylize_eq (cache : List (String × CNode)) (counts : List (String × Nat))
    (styles : UserStyles) (sel : String) (path : List String) (hsh : Nat)
    (insts : List (List String × String × String)) :
    stylize cache counts styles sel path hsh insts =
      (let styleString := stringifyProperties (parseUserStyles styles).properties
       let sid := styleId styleString
       let count := countOf counts sid
       stylizeList
         (if count = 0 then assocSet cache sid (CNode.styleNode styleString [] []) else cache)
         (assocSet counts sid (count + 1))
         (parseUserStyles styles).nestedStyles sel path
         (hash styleString (some (hash sel (some hsh))))
         (insts ++ [(path, sid, sel)])) := by
  rw [stylize, stylizeFuel, stylizeList]
  exact (stylizeFuel_congr (2 * uslSize (parseUserStyles styles).nestedStyles)).2
    _ _ _ _ _ _ _ _ _ (Nat.le_refl _) (uslSize_nested_le styles) (Nat.le_refl _)

theorem stylizeList_nil (cache : List (String × CNode)) (counts : List (String × Nat))
    (sel : String) (path : List String) (hsh : Nat)
    (insts : List (List String × String × String)) :
    stylizeList cache counts [] sel path hsh insts = ⟨cache, counts, hsh, insts⟩ := rfl

theorem stylizeList_cons (cache : List (String × CNode)) (counts : List (String × Nat))
    (name : String) (ts : UserStyles) (rest : List (String × UserStyles))
    (sel : String) (path : List String) (hsh : Nat)
    (insts : List (List String × String × String)) :
    stylizeList cache counts ((name, ts) :: rest) sel path hsh insts =
      (if isAtRule name then
        (let aid := atRuleId name
         let count := countOf counts aid
         let cache1 :=
           if count = 0 then assocSet cache aid (CNode.atRuleNode name [] []) else cache
         let child := (assocGet cache1 aid).getD (CNode.atRuleNode name [] [])
         let r := stylize child.subCacheOf child.subCountsOf ts sel (path ++ [aid]) hsh insts
         stylizeList (assocSet cache1 aid (child.withSub r.cache r.counts))
           (assocSet counts aid (count + 1)) rest sel path r.hsh r.insts)
      else
        (let r := stylize cache counts ts (interpolate name sel) path hsh insts
         stylizeList r.cache r.counts rest sel path r.hsh r.insts)) := by
  rw [stylizeList]
  rw [show uslSize ((name, ts) :: rest) = (1 + ussize ts + uslSize rest) + 1 from by
    rw [uslSize]; omega]
  rw [stylizeListFuel]
  have hstyz : ∀ cache' counts' sel' path',
      stylizeFuel (1 + ussize ts + uslSize rest) cache' counts' ts sel' path' hsh insts =
        stylize cache' counts' ts sel' path' hsh insts :=
    fun cache' counts' sel' path' =>
      (stylizeFuel_congr (2 * ussize ts + 1)).1 _ _ _ _ _ _ _ _ _
        (Nat.le_refl _) (by omega) (by omega)
  have hlist : ∀ cache' counts' hsh' insts',
      stylizeListFuel (1 + ussize ts + uslSize rest) cache' counts' rest sel path hsh' insts' =
        stylizeList cache' counts' rest sel path hsh' insts' :=
    fun cache' counts' hsh' insts' =>
      (stylizeFuel_congr (2 * uslSize rest)).2 _ _ _ _ _ _ _ _ _
        (Nat.le_refl _) (by omega) (Nat.le_refl _)
  by_cases hat : isAtRule name
  · simp only [if_pos hat]
    rw [hstyz, hlist]
  · simp only [if_neg hat]
    rw [hstyz, hlist]

/-! ## Node order, erasure and well-formedness

Everything needed for the deduplication argument: `NodeExt` is the
"state only grows" order on nodes (content fixed, reference counts
nondecreasing, caches gaining entries); erasure forgets the reference
counts, and rendering factors through it; `CacheWF` is the structural
invariant of every container reachable from a fresh root. -/

mutual

/-- Structural size of a node (for induction). -/
def CNode.nsize : CNode → Nat
  | .styleNode _ _ _ => 1
  | .atRuleNode _ sub _ => 1 + nsizeList sub

/-- Structural size of a container cache (for induction). -/
def nsizeList : List (String × CNode) → Nat
  | [] => 0
  | (_, n) :: rest => 1 + n.nsize + nsizeList rest

end

theorem nsize_lt_of_mem {l : List (String × CNode)} {p : String × CNode}
    (h : p ∈ l) : p.2.nsize < nsizeList l := by
  induction l with
  | nil => exact absurd h (List.not_mem_nil p)
  | cons q rest ih =>
    obtain ⟨k, n⟩ := q
    show _ < 1 + n.nsize + nsizeList rest
    rcases List.mem_cons.mp h with h | h
    · have hp : p.2.nsize = n.nsize := by rw [h]
      omega
    · have := ih h
      omega

theorem nsize_lt_of_assocGet {l : List (String × CNode)} {k : String} {n : CNode}
    (h : assocGet l k = some n) : n.nsize < nsizeList l :=
  nsize_lt_of_mem (p := (k, n)) (mem_of_assocGet_eq_some h)

/-- Count-erased view of a node: what rendering depends on. -/
inductive PNode : Type where
  | styleNode (style : String) (selCache : List (String × String))
  | atRuleNode (rule : String) (sub : List (String × PNode))

mutual

/-- Erase the reference counts of a node. -/
def eraseNode : CNode → PNode
  | .styleNode st sc _ => .styleNode st sc
  | .atRuleNode r sub _ => .atRuleNode r (eraseList sub)

/-- Erase the reference counts of a container cache. -/
def eraseList : List (String × CNode) → List (String × PNode)
  | [] => []
  | (k, n) :: rest => (k, eraseNode n) :: eraseList rest

end

/-- The extension order on nodes: declaration/rule text preserved, cached
entries preserved (and themselves only extended), reference counts
nondecreasing. -/
inductive NodeExt : CNode → CNode → Prop where
  | styleNode (st : String) (sc sc' : List (String × String)) (scc scc' : List (String × Nat)) :
      (∀ k v, assocGet sc k = some v → assocGet sc' k = some v) →
      (∀ k, countOf scc k ≤ countOf scc' k) →
      NodeExt (.styleNode st sc scc) (.styleNode st sc' scc')
  | atRuleNode (r : String) (sub sub' : List (String × CNode))
      (subc subc' : List (String × Nat)) :
      (∀ k, (assocGet sub k).isSome → (assocGet sub' k).isSome) →
      (∀ k n n', assocGet sub k = some n → assocGet sub' k = some n' → NodeExt n n') →
      (∀ k, countOf subc k ≤ countOf subc' k) →
      NodeExt (.atRuleNode r sub subc) (.atRuleNode r sub' subc')

/-- The extension order on container caches. -/
def CacheExt (c c' : List (String × CNode)) : Prop :=
  (∀ k, (assocGet c k).isSome → (assocGet c' k).isSome) ∧
  (∀ k n n', assocGet c k = some n → assocGet c' k = some n' → NodeExt n n')

theorem CacheExt.get {c c' : List (String × CNode)} (h : CacheExt c c') {k : String}
    {n : CNode} (hget : assocGet c k = some n) :
    ∃ n', assocGet c' k = some n' ∧ NodeExt n n' := by
  obtain ⟨n', hn'⟩ := Option.isSome_iff_exists.mp (h.1 k (by rw [hget]; rfl))
  exact ⟨n', hn', h.2 k n n' hget hn'⟩

/-- The extension order on (cache, counts) states. -/
def StateExt (c : List (String × CNode)) (k : List (String × Nat))
    (c' : List (String × CNode)) (k' : List (String × Nat)) : Prop :=
  CacheExt c c' ∧ ∀ i, countOf k i ≤ countOf k' i

theorem nodeExt_refl_aux : ∀ (m : Nat) (n : CNode), n.nsize ≤ m → NodeExt n n := by
  intro m
  induction m with
  | zero =>
    intro n h
    cases n <;> rw [CNode.nsize] at h <;> omega
  | succ m ih =>
    intro n h
    cases n with
    | styleNode st sc scc =>
      exact NodeExt.styleNode st sc sc scc scc (fun _ _ hv => hv) (fun _ => Nat.le_refl _)
    | atRuleNode r sub subc =>
      rw [CNode.nsize] at h
      refine NodeExt.atRuleNode r sub sub subc subc (fun _ hv => hv) ?_ (fun _ => Nat.le_refl _)
      intro k n n' hget hget'
      obtain rfl : n = n' := by
        rw [hget] at hget'
        exact Option.some.inj hget'
      exact ih n (by have := nsize_lt_of_assocGet hget; omega)

theorem nodeExt_rfl (n : CNode) : NodeExt n n :=
  nodeExt_refl_aux n.nsize n (Nat.le_refl _)

theorem cacheExt_rfl (c : List (String × CNode)) : CacheExt c c :=
  ⟨fun _ hv => hv, fun k n n' hget hget' => by
    obtain rfl : n = n' := by
      rw [hget] at hget'
      exact Option.some.inj hget'
    exact nodeExt_rfl n⟩

theorem stateExt_rfl (c : List (String × CNode)) (k : List (String × Nat)) :
    StateExt c k c k :=
  ⟨cacheExt_rfl c, fun _ => Nat.le_refl _⟩

theorem nodeExt_trans_aux : ∀ (m : Nat) (a b c : CNode), a.nsize ≤ m →
    NodeExt a b → NodeExt b c → NodeExt a c := by
  intro m
  induction m with
  | zero =>
    intro a b c h _ _
    cases a <;> rw [CNode.nsize] at h <;> omega
  | succ m ih =>
    intro a b c h hab hbc
    cases hab with
    | styleNode st sc sc' scc scc' hsc hscc =>
      cases hbc with
      | styleNode _ _ sc'' _ scc'' hsc' hscc' =>
        exact NodeExt.styleNode st sc sc'' scc scc''
          (fun k v hv => hsc' k v (hsc k v hv))
          (fun k => Nat.le_trans (hscc k) (hscc' k))
    | atRuleNode r sub sub' subc subc' hsome hsub hsubc =>
      cases hbc with
      | atRuleNode _ _ sub'' _ subc'' hsome' hsub' hsubc' =>
        rw [CNode.nsize] at h
        refine NodeExt.atRuleNode r sub sub'' subc subc''
          (fun k hv => hsome' k (hsome k hv)) ?_
          (fun k => Nat.le_trans (hsubc k) (hsubc' k))
        intro k n n'' hget hget''
        obtain ⟨n', hget'⟩ := Option.isSome_iff_exists.mp (hsome k (by rw [hget]; rfl))
        exact ih n n' n'' (by have := nsize_lt_of_assocGet hget; omega)
          (hsub k n n' hget hget') (hsub' k n' n'' hget' hget'')

theorem nodeExt_trans {a b c : CNode} (hab : NodeExt a b) (hbc : NodeExt b c) :
    NodeExt a c :=
  nodeExt_trans_aux a.nsize a b c (Nat.le_refl _) hab hbc

theorem cacheExt_trans {a b c : List (String × CNode)} (hab : CacheExt a b)
    (hbc : CacheExt b c) : CacheExt a c := by
  refine ⟨fun k hv => hbc.1 k (hab.1 k hv), ?_⟩
  intro k n n'' hget hget''
  obtain ⟨n', hget', hext⟩ := hab.get hget
  exact nodeExt_trans hext (hbc.2 k n' n'' hget' hget'')

theorem stateExt_trans {c₁ c₂ c₃ : List (String × CNode)}
    {k₁ k₂ k₃ : List (String × Nat)} (h₁ : StateExt c₁ k₁ c₂ k₂)
    (h₂ : StateExt c₂ k₂ c₃ k₃) : StateExt c₁ k₁ c₃ k₃ :=
  ⟨cacheExt_trans h₁.1 h₂.1, fun i => Nat.le_trans (h₁.2 i) (h₂.2 i)⟩

theorem eraseList_assocSet_of_same {c : List (String × CNode)} {k : String} {n n' : CNode}
    (hget : assocGet c k = some n) (he : eraseNode n' = eraseNode n) :
    eraseList (assocSet c k n') = eraseList c := by
  induction c with
  | nil => simp [assocGet] at hget
  | cons q rest ih =>
    obtain ⟨kq, nq⟩ := q
    rw [assocGet] at hget
    by_cases hk : kq = k
    · rw [if_pos hk] at hget
      obtain rfl : nq = n := Option.some.inj hget
      rw [assocSet, if_pos hk]
      show (k, eraseNode n') :: eraseList rest = (kq, eraseNode nq) :: eraseList rest
      rw [he, hk]
    · rw [if_neg hk] at hget
      rw [assocSet, if_neg hk]
      show (kq, eraseNode nq) :: eraseList (assocSet rest k n') = (kq, eraseNode nq) :: _
      rw [ih hget]

theorem getStyles_congr_aux : ∀ m : Nat,
    (∀ n₁ n₂ : CNode, n₁.nsize ≤ m → eraseNode n₁ = eraseNode n₂ →
      n₁.getStyles = n₂.getStyles) ∧
    (∀ l₁ l₂ : List (String × CNode), nsizeList l₁ ≤ m → eraseList l₁ = eraseList l₂ →
      getStylesList l₁ = getStylesList l₂) := by
  intro m
  induction m with
  | zero =>
    constructor
    · intro n₁ n₂ h _
      cases n₁ <;> rw [CNode.nsize] at h <;> omega
    · intro l₁ l₂ h he
      match l₁, l₂, he with
      | [], [], _ => rfl
      | [], (k₂, n₂) :: rest₂, he =>
        rw [eraseList, eraseList] at he
        exact absurd he (by intro hc; injection hc)
      | (k₁, n₁) :: rest₁, _, _ =>
        exfalso
        rw [show nsizeList ((k₁, n₁) :: rest₁) = 1 + n₁.nsize + nsizeList rest₁ from rfl] at h
        omega
  | succ m ih =>
    constructor
    · intro n₁ n₂ h he
      match n₁, n₂, he with
      | .styleNode st sc scc, .styleNode st' sc' scc', he =>
        rw [eraseNode, eraseNode] at he
        obtain ⟨rfl, rfl⟩ : st = st' ∧ sc = sc' := by
          injection he with h1 h2
          exact ⟨h1, h2⟩
        rfl
      | .styleNode st sc scc, .atRuleNode r' sub' subc', he =>
        rw [eraseNode, eraseNode] at he
        exact absurd he (by intro hc; injection hc)
      | .atRuleNode r sub subc, .styleNode st' sc' scc', he =>
        rw [eraseNode, eraseNode] at he
        exact absurd he (by intro hc; injection hc)
      | .atRuleNode r sub subc, .atRuleNode r' sub' subc', he =>
        rw [eraseNode, eraseNode] at he
        obtain ⟨rfl, hsub⟩ : r = r' ∧ eraseList sub = eraseList sub' := by
          injection he with h1 h2
          exact ⟨h1, h2⟩
        rw [CNode.nsize] at h
        show r ++ "\x7b" ++ getStylesList sub ++ "\x7d" = r ++ "\x7b" ++ getStylesList sub' ++ "\x7d"
        rw [ih.2 sub sub' (by omega) hsub]
    · intro l₁ l₂ h he
      match l₁, l₂, he with
      | [], [], _ => rfl
      | [], (k₂, n₂) :: rest₂, he =>
        rw [eraseList, eraseList] at he
        exact absurd he (by intro hc; injection hc)
      | (k₁, n₁) :: rest₁, [], he =>
        rw [eraseList, eraseList] at he
        exact absurd he (by intro hc; injection hc)
      | (k₁, n₁) :: rest₁, (k₂, n₂) :: rest₂, he =>
        rw [eraseList, eraseList] at he
        have h1 : (k₁, eraseNode n₁) = (k₂, eraseNode n₂) ∧ eraseList rest₁ = eraseList rest₂ := by
          injection he with ha hb
          exact ⟨ha, hb⟩
        have hn : eraseNode n₁ = eraseNode n₂ := (Prod.ext_iff.mp h1.1).2
        show n₁.getStyles ++ getStylesList rest₁ = n₂.getStyles ++ getStylesList rest₂
        rw [show nsizeList ((k₁, n₁) :: rest₁) = 1 + n₁.nsize + nsizeList rest₁ from rfl] at h
        rw [ih.1 n₁ n₂ (by omega) hn, ih.2 rest₁ rest₂ (by omega) h1.2]

theorem getStyles_congr {n₁ n₂ : CNode} (he : eraseNode n₁ = eraseNode n₂) :
    n₁.getStyles = n₂.getStyles :=
  (getStyles_congr_aux n₁.nsize).1 n₁ n₂ (Nat.le_refl _) he

theorem getStylesList_congr {l₁ l₂ : List (String × CNode)}
    (he : eraseList l₁ = eraseList l₂) : getStylesList l₁ = getStylesList l₂ :=
  (getStyles_congr_aux (nsizeList l₁)).2 l₁ l₂ (Nat.le_refl _) he

theorem cacheExt_assocSet_present {c : List (String × CNode)} {k : String} {n n' : CNode}
    (hget : assocGet c k = some n) (hext : NodeExt n n') : CacheExt c (assocSet c k n') := by
  constructor
  · intro j hj
    by_cases hjk : j = k
    · subst hjk
      rw [assocGet_assocSet_self]
      rfl
    · rw [assocGet_assocSet_ne _ _ _ _ hjk]
      exact hj
  · intro j m m' hm hm'
    by_cases hjk : j = k
    · subst hjk
      rw [hget] at hm
      obtain rfl : n = m := Option.some.inj hm
      rw [assocGet_assocSet_self] at hm'
      obtain rfl : n' = m' := Option.some.inj hm'
      exact hext
    · rw [assocGet_assocSet_ne _ _ _ _ hjk] at hm'
      rw [hm] at hm'
      obtain rfl : m = m' := Option.some.inj hm'
      exact nodeExt_rfl m

theorem cacheExt_assocSet_absent {c : List (String × CNode)} {k : String} {v : CNode}
    (hget : assocGet c k = none) : CacheExt c (assocSet c k v) := by
  constructor
  · intro j hj
    by_cases hjk : j = k
    · subst hjk
      rw [assocGet_assocSet_self]
      rfl
    · rw [assocGet_assocSet_ne _ _ _ _ hjk]
      exact hj
  · intro j m m' hm hm'
    by_cases hjk : j = k
    · subst hjk
      rw [hget] at hm
      exact absurd hm (by intro hc; injection hc)
    · rw [assocGet_assocSet_ne _ _ _ _ hjk] at hm'
      rw [hm] at hm'
      obtain rfl : m = m' := Option.some.inj hm'
      exact nodeExt_rfl m

theorem countOf_le_assocSet {counts : List (String × Nat)} {k : String} {v : Nat}
    (hv : countOf counts k ≤ v) : ∀ i, countOf counts i ≤ countOf (assocSet counts k v) i := by
  intro i
  by_cases hik : i = k
  · subst hik
    rw [countOf_assocSet_self]
    exact hv
  · rw [countOf_assocSet_ne _ _ _ _ hik]

mutual

/-- Invariant of a single node: each of its own cached entries is
reference-counted, recursively well-formed, and stored under its id. -/
def nodeWF : CNode → Prop
  | .styleNode _ sc scc => ∀ k, (assocGet sc k).isSome → 0 < countOf scc k
  | .atRuleNode _ sub subc =>
      listWF sub ∧ (∀ k, (assocGet sub k).isSome → 0 < countOf subc k) ∧
      (∀ k n, assocGet sub k = some n → CNode.id n = k)

/-- Invariant of all nodes of a container cache. -/
def listWF : List (String × CNode) → Prop
  | [] => True
  | (_, n) :: rest => nodeWF n ∧ listWF rest

end

/-- Invariant of a (cache, counts) container state: all nodes well
formed, entries reference-counted, and stored under their ids. -/
def CacheWF (cache : List (String × CNode)) (counts : List (String × Nat)) : Prop :=
  listWF cache ∧ (∀ k, (assocGet cache k).isSome → 0 < countOf counts k) ∧
  (∀ k n, assocGet cache k = some n → CNode.id n = k)

theorem nodeWF_of_mem {l : List (String × CNode)} {p : String × CNode}
    (hwf : listWF l) (h : p ∈ l) : nodeWF p.2 := by
  induction l with
  | nil => exact absurd h (List.not_mem_nil p)
  | cons q rest ih =>
    obtain ⟨k, n⟩ := q
    obtain ⟨hn, hrest⟩ := hwf
    rcases List.mem_cons.mp h with h | h
    · rw [h]
      exact hn
    · exact ih hrest h

theorem nodeWF_of_assocGet {l : List (String × CNode)} {k : String} {n : CNode}
    (hwf : listWF l) (h : assocGet l k = some n) : nodeWF n :=
  nodeWF_of_mem (p := (k, n)) hwf (mem_of_assocGet_eq_some h)

theorem listWF_assocSet {l : List (String × CNode)} {k : String} {v : CNode}
    (hwf : listWF l) (hv : nodeWF v) : listWF (assocSet l k v) := by
  induction l with
  | nil => exact ⟨hv, trivial⟩
  | cons q rest ih =>
    obtain ⟨kq, n⟩ := q
    obtain ⟨hn, hrest⟩ := hwf
    rw [assocSet]
    by_cases hk : kq = k
    · rw [if_pos hk]
      exact ⟨hv, hrest⟩
    · rw [if_neg hk]
      exact ⟨hn, ih hrest⟩

/-! ## The saturation predicate

`Sat cache counts S` says the container state already holds every node
that compiling the tree `S` would add: the layer's `Style` is counted,
every nested at-rule is counted and stored as an `AtRule` whose own
container is saturated for the corresponding subtree, and every other
nested tree is saturated in the same container.  Compiling `S` over a
saturated state leaves the count-erased state unchanged. -/

inductive Sat : List (String × CNode) → List (String × Nat) → UserStyles → Prop where
  | mk (cache : List (String × CNode)) (counts : List (String × Nat)) (S : UserStyles) :
      0 < countOf counts (styleId (stringifyProperties (parseUserStyles S).properties)) →
      (∀ name ts, (name, ts) ∈ (parseUserStyles S).nestedStyles → isAtRule name = true →
        0 < countOf counts (atRuleId name)) →
      (∀ name ts, (name, ts) ∈ (parseUserStyles S).nestedStyles → isAtRule name = true →
        ∃ rule sub subc, assocGet cache (atRuleId name) = some (CNode.atRuleNode rule sub subc)) →
      (∀ name ts rule sub subc, (name, ts) ∈ (parseUserStyles S).nestedStyles →
        isAtRule name = true →
        assocGet cache (atRuleId name) = some (CNode.atRuleNode rule sub subc) →
        Sat sub subc ts) →
      (∀ name ts, (name, ts) ∈ (parseUserStyles S).nestedStyles → isAtRule name = false →
        Sat cache counts ts) →
      Sat cache counts S

theorem Sat.mono {c : List (String × CNode)} {k : List (String × Nat)} {S : UserStyles}
    (hsat : Sat c k S) :
    ∀ {c' : List (String × CNode)} {k' : List (String × Nat)},
      StateExt c k c' k' → Sat c' k' S := by
  induction hsat with
  | mk cache counts S hstyle hatc hatex hatrec hnest ih₁ ih₂ =>
    intro c' k' hext
    refine Sat.mk c' k' S (Nat.lt_of_lt_of_le hstyle (hext.2 _)) ?_ ?_ ?_ ?_
    · intro name ts hmem hat
      exact Nat.lt_of_lt_of_le (hatc name ts hmem hat) (hext.2 _)
    · intro name ts hmem hat
      obtain ⟨rule, sub, subc, hget⟩ := hatex name ts hmem hat
      obtain ⟨n', hget', hne⟩ := hext.1.get hget
      cases hne with
      | atRuleNode _ _ sub' _ subc' hsome hsub hsubc =>
        exact ⟨rule, sub', subc', hget'⟩
    · intro name ts rule' sub' subc' hmem hat hget'
      obtain ⟨rule, sub, subc, hget⟩ := hatex name ts hmem hat
      obtain ⟨n', hget₂, hne⟩ := hext.1.get hget
      rw [hget'] at hget₂
      obtain rfl : n' = CNode.atRuleNode rule' sub' subc' := (Option.some.inj hget₂).symm
      cases hne with
      | atRuleNode _ _ _ _ _ hsome hsub hsubc =>
        exact ih₁ name ts _ _ _ hmem hat hget ⟨⟨hsome, hsub⟩, hsubc⟩
    · intro name ts hmem hat
      exact ih₂ name ts hmem hat hext

/-! ## Locating the canonical style instances -/

/-- Navigate a container cache along a path of at-rule ids. -/
def containerAt : List (String × CNode) → List String → Option (List (String × CNode))
  | cache, [] => some cache
  | cache, aid :: rest =>
    match assocGet cache aid with
    | some (CNode.atRuleNode _ sub _) => containerAt sub rest
    | _ => none

/-- The canonical style instance recorded in `styleInstances` is present:
the container at the recorded path holds a `Style` node under the
recorded id. -/
def StylePresentAt (cache : List (String × CNode)) (path : List String) (sid : String) : Prop :=
  ∃ sub, containerAt cache path = some sub ∧
    ∃ st sc scc, assocGet sub sid = some (CNode.styleNode st sc scc)

/-- The style instance at the recorded path additionally holds a positive
reference count for the given selector string. -/
def SelCountPos (cache : List (String × CNode)) (path : List String) (sid : String)
    (selStr : String) : Prop :=
  ∃ sub, containerAt cache path = some sub ∧
    ∃ st sc scc, assocGet sub sid = some (CNode.styleNode st sc scc) ∧
      0 < countOf scc (selectorId selStr)

theorem containerAt_mono {c c' : List (String × CNode)} (hext : CacheExt c c') :
    ∀ {path : List String} {sub : List (String × CNode)},
      containerAt c path = some sub →
      ∃ sub', containerAt c' path = some sub' ∧ CacheExt sub sub' := by
  intro path
  induction path generalizing c c' hext with
  | nil =>
    intro sub h
    obtain rfl : c = sub := Option.some.inj h
    exact ⟨c', rfl, hext⟩
  | cons aid rest ih =>
    intro sub h
    rw [containerAt] at h
    match hget : assocGet c aid, h with
    | some (CNode.atRuleNode r sub₀ subc₀), h =>
      obtain ⟨n', hget', hne⟩ := hext.get hget
      cases hne with
      | atRuleNode _ _ sub₀' _ subc₀' hsome hsub hsubc =>
        obtain ⟨sub', hsub', hext'⟩ := ih ⟨hsome, hsub⟩ h
        refine ⟨sub', ?_, hext'⟩
        rw [containerAt, hget']
        exact hsub'

theorem stylePresentAt_mono {c c' : List (String × CNode)} (hext : CacheExt c c')
    {path : List String} {sid : String} (h : StylePresentAt c path sid) :
    StylePresentAt c' path sid := by
  obtain ⟨sub, hsub, st, sc, scc, hget⟩ := h
  obtain ⟨sub', hsub', hext'⟩ := containerAt_mono hext hsub
  obtain ⟨n', hget', hne⟩ := hext'.get hget
  cases hne with
  | styleNode _ _ sc' _ scc' hsc hscc =>
    exact ⟨sub', hsub', st, sc', scc', hget'⟩

theorem selCountPos_mono {c c' : List (String × CNode)} (hext : CacheExt c c')
    {path : List String} {sid selStr : String} (h : SelCountPos c path sid selStr) :
    SelCountPos c' path sid selStr := by
  obtain ⟨sub, hsub, st, sc, scc, hget, hcount⟩ := h
  obtain ⟨sub', hsub', hext'⟩ := containerAt_mono hext hsub
  obtain ⟨n', hget', hne⟩ := hext'.get hget
  cases hne with
  | styleNode _ _ sc' _ scc' hsc hscc =>
    exact ⟨sub', hsub', st, sc', scc', hget', Nat.lt_of_lt_of_le hcount (hscc _)⟩

/-! ## Named pieces of one walk step -/

/-- The declaration text of one style layer. -/
def layerString (styles : UserStyles) : String :=
  stringifyProperties (parseUserStyles styles).properties

/-- The counter update of one `Cache.add`. -/
def bumpCounts (counts : List (String × Nat)) (k : String) : List (String × Nat) :=
  assocSet counts k (countOf counts k + 1)

/-- The cache update of `container.add(new Style(styleString))`. -/
def styleAddCache (cache : List (String × CNode)) (counts : List (String × Nat))
    (ss : String) : List (String × CNode) :=
  if countOf counts (styleId ss) = 0
  then assocSet cache (styleId ss) (CNode.styleNode ss [] []) else cache

/-- The cache update of `container.add(new AtRule(name))`. -/
def atAddCache (cache : List (String × CNode)) (counts : List (String × Nat))
    (name : String) : List (String × CNode) :=
  if countOf counts (atRuleId name) = 0
  then assocSet cache (atRuleId name) (CNode.atRuleNode name [] []) else cache

/-- The canonical `AtRule` instance returned by `container.add`. -/
def childOf (cache1 : List (String × CNode)) (name : String) : CNode :=
  (assocGet cache1 (atRuleId name)).getD (CNode.atRuleNode name [] [])

theorem stylize_unfold (cache : List (String × CNode)) (counts : List (String × Nat))
    (styles : UserStyles) (sel : String) (path : List String) (hsh : Nat)
    (insts : List (List String × String × String)) :
    stylize cache counts styles sel path hsh insts =
      stylizeList (styleAddCache cache counts (layerString styles))
        (bumpCounts counts (styleId (layerString styles)))
        (parseUserStyles styles).nestedStyles sel path
        (hash (layerString styles) (some (hash sel (some hsh))))
        (insts ++ [(path, styleId (layerString styles), sel)]) :=
  stylize_eq cache counts styles sel path hsh insts

theorem stylizeList_unfold_at {name : String} (hat : isAtRule name = true)
    (cache : List (String × CNode)) (counts : List (String × Nat)) (ts : UserStyles)
    (rest : List (String × UserStyles)) (sel : String) (path : List String) (hsh : Nat)
    (insts : List (List String × String × String)) :
    stylizeList cache counts ((name, ts) :: rest) sel path hsh insts =
      stylizeList
        (assocSet (atAddCache cache counts name) (atRuleId name)
          ((childOf (atAddCache cache counts name) name).withSub
            (stylize (childOf (atAddCache cache counts name) name).subCacheOf
              (childOf (atAddCache cache counts name) name).subCountsOf
              ts sel (path ++ [atRuleId name]) hsh insts).cache
            (stylize (childOf (atAddCache cache counts name) name).subCacheOf
              (childOf (atAddCache cache counts name) name).subCountsOf
              ts sel (path ++ [atRuleId name]) hsh insts).counts))
        (bumpCounts counts (atRuleId name)) rest sel path
        (stylize (childOf (atAddCache cache counts name) name).subCacheOf
          (childOf (atAddCache cache counts name) name).subCountsOf
          ts sel (path ++ [atRuleId name]) hsh insts).hsh
        (stylize (childOf (atAddCache cache counts name) name).subCacheOf
          (childOf (atAddCache cache counts name) name).subCountsOf
          ts sel (path ++ [atRuleId name]) hsh insts).insts := by
  rw [stylizeList_cons, if_pos hat]
  rfl

theorem stylizeList_unfold_not {name : String} (hat : isAtRule name = false)
    (cache : List (String × CNode)) (counts : List (String × Nat)) (ts : UserStyles)
    (rest : List (String × UserStyles)) (sel : String) (path : List String) (hsh : Nat)
    (insts : List (List String × String × String)) :
    stylizeList cache counts ((name, ts) :: rest) sel path hsh insts =
      stylizeList (stylize cache counts ts (interpolate name sel) path hsh insts).cache
        (stylize cache counts ts (interpolate name sel) path hsh insts).counts rest sel path
        (stylize cache counts ts (interpolate name sel) path hsh insts).hsh
        (stylize cache counts ts (interpolate name sel) path hsh insts).insts := by
  rw [stylizeList_cons, if_neg (by rw [hat]; exact Bool.false_ne_true)]

/-! ## One cache-add step extends the state and preserves the invariant -/

theorem cacheWF_nil (counts : List (String × Nat)) :
    CacheWF [] counts := by
  refine ⟨trivial, ?_, ?_⟩
  · intro k h
    simp [assocGet] at h
  · intro k n h
    simp [assocGet] at h

theorem nodeWF_freshStyle (ss : String) : nodeWF (CNode.styleNode ss [] []) := by
  intro k h
  simp [assocGet] at h

theorem nodeWF_freshAtRule (r : String) : nodeWF (CNode.atRuleNode r [] []) := by
  refine ⟨trivial, ?_, ?_⟩
  · intro k h
    simp [assocGet] at h
  · intro k n h
    simp [assocGet] at h

theorem nodeWF_atRule_iff (r : String) (sub : List (String × CNode))
    (subc : List (String × Nat)) :
    nodeWF (CNode.atRuleNode r sub subc) ↔ CacheWF sub subc :=
  Iff.rfl

theorem cacheAdd_ext_wf {cache : List (String × CNode)} {counts : List (String × Nat)}
    (hwf : CacheWF cache counts) (k : String) (v : CNode) (hid : CNode.id v = k)
    (hv : nodeWF v) :
    StateExt cache counts (if countOf counts k = 0 then assocSet cache k v else cache)
      (assocSet counts k (countOf counts k + 1)) ∧
    CacheWF (if countOf counts k = 0 then assocSet cache k v else cache)
      (assocSet counts k (countOf counts k + 1)) := by
  by_cases h0 : countOf counts k = 0
  · rw [if_pos h0]
    have hnone : assocGet cache k = none := by
      cases hg : assocGet cache k with
      | none => rfl
      | some n =>
        have := hwf.2.1 k (by rw [hg]; rfl)
        omega
    refine ⟨⟨cacheExt_assocSet_absent hnone, countOf_le_assocSet (by omega)⟩, ?_, ?_, ?_⟩
    · exact listWF_assocSet hwf.1 hv
    · intro j hj
      by_cases hjk : j = k
      · subst hjk
        rw [countOf_assocSet_self]
        omega
      · rw [assocGet_assocSet_ne _ _ _ _ hjk] at hj
        rw [countOf_assocSet_ne _ _ _ _ hjk]
        exact hwf.2.1 j hj
    · intro j n hn
      by_cases hjk : j = k
      · subst hjk
        rw [assocGet_assocSet_self] at hn
        obtain rfl : v = n := Option.some.inj hn
        exact hid
      · rw [assocGet_assocSet_ne _ _ _ _ hjk] at hn
        exact hwf.2.2 j n hn
  · rw [if_neg h0]
    refine ⟨⟨cacheExt_rfl cache, countOf_le_assocSet (by omega)⟩, hwf.1, ?_, hwf.2.2⟩
    intro j hj
    by_cases hjk : j = k
    · subst hjk
      rw [countOf_assocSet_self]
      omega
    · rw [countOf_assocSet_ne _ _ _ _ hjk]
      exact hwf.2.1 j hj

theorem styleAdd_ext_wf {cache : List (String × CNode)} {counts : List (String × Nat)}
    (hwf : CacheWF cache counts) (ss : String) :
    StateExt cache counts (styleAddCache cache counts ss) (bumpCounts counts (styleId ss)) ∧
    CacheWF (styleAddCache cache counts ss) (bumpCounts counts (styleId ss)) := by
  unfold styleAddCache bumpCounts
  exact cacheAdd_ext_wf hwf (styleId ss) (CNode.styleNode ss [] []) rfl (nodeWF_freshStyle ss)

theorem atAdd_ext_wf {cache : List (String × CNode)} {counts : List (String × Nat)}
    (hwf : CacheWF cache counts) (name : String) :
    StateExt cache counts (atAddCache cache counts name) (bumpCounts counts (atRuleId name)) ∧
    CacheWF (atAddCache cache counts name) (bumpCounts counts (atRuleId name)) := by
  unfold atAddCache bumpCounts
  exact cacheAdd_ext_wf hwf (atRuleId name) (CNode.atRuleNode name [] []) rfl
    (nodeWF_freshAtRule name)

theorem styleId_head (st : String) : (styleId st).data.head? = some 'n' := rfl

theorem atRuleId_head (r : String) : (atRuleId r).data.head? = some 'a' := rfl

theorem eq_atRuleNode_of_id {n : CNode} {r : String} (h : CNode.id n = atRuleId r) :
    ∃ r₀ sub subc, n = CNode.atRuleNode r₀ sub subc := by
  cases n with
  | styleNode st sc scc =>
    exfalso
    rw [CNode.id] at h
    have h1 : (styleId st).data.head? = some 'n' := rfl
    rw [h] at h1
    have h2 : (atRuleId r).data.head? = some 'a' := rfl
    rw [h1] at h2
    exact absurd h2 (by decide)
  | atRuleNode r₀ sub subc => exact ⟨r₀, sub, subc, rfl⟩

theorem childOf_spec {cache1 : List (String × CNode)} {counts' : List (String × Nat)}
    (hwf : CacheWF cache1 counts') (name : String) :
    (∃ r₀ sub₀ subc₀,
      assocGet cache1 (atRuleId name) = some (CNode.atRuleNode r₀ sub₀ subc₀) ∧
      childOf cache1 name = CNode.atRuleNode r₀ sub₀ subc₀ ∧ CacheWF sub₀ subc₀) ∨
    (assocGet cache1 (atRuleId name) = none ∧
      childOf cache1 name = CNode.atRuleNode name [] []) := by
  cases hg : assocGet cache1 (atRuleId name) with
  | none =>
    right
    refine ⟨rfl, ?_⟩
    rw [childOf, hg]
    rfl
  | some n =>
    left
    obtain ⟨r₀, sub₀, subc₀, rfl⟩ := eq_atRuleNode_of_id (hwf.2.2 _ n hg)
    refine ⟨r₀, sub₀, subc₀, rfl, ?_, ?_⟩
    · rw [childOf, hg]
      rfl
    · exact (nodeWF_atRule_iff _ _ _).mp (nodeWF_of_assocGet hwf.1 hg)

theorem countOf_bumpCounts_self (counts : List (String × Nat)) (k : String) :
    countOf (bumpCounts counts k) k = countOf counts k + 1 := by
  rw [bumpCounts, countOf_assocSet_self]

theorem writeback_ext_wf {cache1 : List (String × CNode)} {counts1 : List (String × Nat)}
    (hwf1 : CacheWF cache1 counts1) {aid r₀ : String} {sub₀ sub' : List (String × CNode)}
    {subc₀ subc' : List (String × Nat)}
    (hg : assocGet cache1 aid = some (CNode.atRuleNode r₀ sub₀ subc₀))
    (hpos : 0 < countOf counts1 aid)
    (hsub : StateExt sub₀ subc₀ sub' subc') (hwf' : CacheWF sub' subc') :
    CacheExt cache1 (assocSet cache1 aid (CNode.atRuleNode r₀ sub' subc')) ∧
    CacheWF (assocSet cache1 aid (CNode.atRuleNode r₀ sub' subc')) counts1 := by
  have hnew : NodeExt (CNode.atRuleNode r₀ sub₀ subc₀) (CNode.atRuleNode r₀ sub' subc') :=
    NodeExt.atRuleNode r₀ _ _ _ _ hsub.1.1 hsub.1.2 hsub.2
  refine ⟨cacheExt_assocSet_present hg hnew,
    listWF_assocSet hwf1.1 ((nodeWF_atRule_iff _ _ _).mpr hwf'), ?_, ?_⟩
  · intro j hj
    by_cases hjk : j = aid
    · subst hjk
      exact hpos
    · rw [assocGet_assocSet_ne _ _ _ _ hjk] at hj
      exact hwf1.2.1 j hj
  · intro j n hn
    by_cases hjk : j = aid
    · subst hjk
      rw [assocGet_assocSet_self] at hn
      obtain rfl : CNode.atRuleNode r₀ sub' subc' = n := Option.some.inj hn
      have hid := hwf1.2.2 _ _ hg
      rw [CNode.id] at hid
      rw [CNode.id]
      exact hid
    · rw [assocGet_assocSet_ne _ _ _ _ hjk] at hn
      exact hwf1.2.2 j n hn

theorem writeback_fresh_ext_wf {cache1 : List (String × CNode)} {counts1 : List (String × Nat)}
    (hwf1 : CacheWF cache1 counts1) {name : String} {sub' : List (String × CNode)}
    {subc' : List (String × Nat)}
    (hg : assocGet cache1 (atRuleId name) = none)
    (hpos : 0 < countOf counts1 (atRuleId name)) (hwf' : CacheWF sub' subc') :
    CacheExt cache1 (assocSet cache1 (atRuleId name) (CNode.atRuleNode name sub' subc')) ∧
    CacheWF (assocSet cache1 (atRuleId name) (CNode.atRuleNode name sub' subc')) counts1 := by
  refine ⟨cacheExt_assocSet_absent hg,
    listWF_assocSet hwf1.1 ((nodeWF_atRule_iff _ _ _).mpr hwf'), ?_, ?_⟩
  · intro j hj
    by_cases hjk : j = atRuleId name
    · subst hjk
      exact hpos
    · rw [assocGet_assocSet_ne _ _ _ _ hjk] at hj
      exact hwf1.2.1 j hj
  · intro j n hn
    by_cases hjk : j = atRuleId name
    · subst hjk
      rw [assocGet_assocSet_self] at hn
      obtain rfl : CNode.atRuleNode name sub' subc' = n := Option.some.inj hn
      rfl
    · rw [assocGet_assocSet_ne _ _ _ _ hjk] at hn
      exact hwf1.2.2 j n hn

/-- The tree walk only extends the container state, and preserves the
container invariant (rank-indexed mutual statement). -/
theorem stylize_ext_wf : ∀ r : Nat,
    (∀ styles cache counts sel path hsh insts,
      2 * ussize styles + 1 ≤ r → CacheWF cache counts →
      StateExt cache counts (stylize cache counts styles sel path hsh insts).cache
        (stylize cache counts styles sel path hsh insts).counts ∧
      CacheWF (stylize cache counts styles sel path hsh insts).cache
        (stylize cache counts styles sel path hsh insts).counts) ∧
    (∀ l cache counts sel path hsh insts,
      2 * uslSize l ≤ r → CacheWF cache counts →
      StateExt cache counts (stylizeList cache counts l sel path hsh insts).cache
        (stylizeList cache counts l sel path hsh insts).counts ∧
      CacheWF (stylizeList cache counts l sel path hsh insts).cache
        (stylizeList cache counts l sel path hsh insts).counts) := by
  intro r
  induction r using Nat.strong_induction_on with
  | _ r ih =>
    constructor
    · intro styles cache counts sel path hsh insts hr hwf
      rw [stylize_unfold]
      obtain ⟨hext1, hwf1⟩ := styleAdd_ext_wf hwf (layerString styles)
      obtain ⟨hext2, hwf2⟩ := (ih (2 * uslSize (parseUserStyles styles).nestedStyles)
          (by have := uslSize_nested_le styles; omega)).2
        (parseUserStyles styles).nestedStyles _ _ sel path _ _ (Nat.le_refl _) hwf1
      exact ⟨stateExt_trans hext1 hext2, hwf2⟩
    · intro l cache counts sel path hsh insts hr hwf
      match l with
      | [] =>
        rw [stylizeList_nil]
        exact ⟨stateExt_rfl cache counts, hwf⟩
      | (name, ts) :: rest =>
        rw [uslSize] at hr
        by_cases hat : isAtRule name
        · rw [stylizeList_unfold_at hat]
          obtain ⟨hext1, hwf1⟩ := atAdd_ext_wf hwf name
          have hposaid : 0 < countOf (bumpCounts counts (atRuleId name)) (atRuleId name) := by
            rw [countOf_bumpCounts_self]
            omega
          rcases childOf_spec hwf1 name with
            ⟨r₀, sub₀, subc₀, hg, hchild, hsubwf⟩ | ⟨hg, hchild⟩
          · rw [hchild]
            simp only [CNode.subCacheOf, CNode.subCountsOf, CNode.withSub]
            obtain ⟨hextR, hwfR⟩ := (ih (2 * ussize ts + 1) (by omega)).1 ts sub₀ subc₀
              sel (path ++ [atRuleId name]) hsh insts (Nat.le_refl _) hsubwf
            obtain ⟨hext3, hwf3⟩ := writeback_ext_wf hwf1 hg hposaid hextR hwfR
            obtain ⟨hext4, hwf4⟩ := (ih (2 * uslSize rest) (by omega)).2 rest _ _ sel path _ _
              (Nat.le_refl _) hwf3
            exact ⟨stateExt_trans (stateExt_trans hext1 ⟨hext3, fun i => Nat.le_refl _⟩) hext4, hwf4⟩
          · rw [hchild]
            simp only [CNode.subCacheOf, CNode.subCountsOf, CNode.withSub]
            obtain ⟨hextR, hwfR⟩ := (ih (2 * ussize ts + 1) (by omega)).1 ts [] []
              sel (path ++ [atRuleId name]) hsh insts (Nat.le_refl _) (cacheWF_nil [])
            obtain ⟨hext3, hwf3⟩ := writeback_fresh_ext_wf hwf1 hg hposaid hwfR
            obtain ⟨hext4, hwf4⟩ := (ih (2 * uslSize rest) (by omega)).2 rest _ _ sel path _ _
              (Nat.le_refl _) hwf3
            exact ⟨stateExt_trans (stateExt_trans hext1 ⟨hext3, fun i => Nat.le_refl _⟩) hext4, hwf4⟩
        · rw [stylizeList_unfold_not (by rw [Bool.eq_false_iff]; exact hat)]
          obtain ⟨hext1, hwf1⟩ := (ih (2 * ussize ts + 1) (by omega)).1 ts cache counts
            (interpolate name sel) path hsh insts (Nat.le_refl _) hwf
          obtain ⟨hext2, hwf2⟩ := (ih (2 * uslSize rest) (by omega)).2 rest _ _ sel path _ _
            (Nat.le_refl _) hwf1
          exact ⟨stateExt_trans hext1 hext2, hwf2⟩

/-- After compiling a tree over a well-formed state, the result is
saturated for that tree (rank-indexed mutual statement; the list part
gives, for each pending nested entry, the saturation obligations of the
final state of the loop). -/
theorem stylize_sat : ∀ r : Nat,
    (∀ styles cache counts sel path hsh insts,
      2 * ussize styles + 1 ≤ r → CacheWF cache counts →
      Sat (stylize cache counts styles sel path hsh insts).cache
        (stylize cache counts styles sel path hsh insts).counts styles) ∧
    (∀ l cache counts sel path hsh insts,
      2 * uslSize l ≤ r → CacheWF cache counts →
      ∀ name ts, (name, ts) ∈ l →
        (isAtRule name = true →
          0 < countOf (stylizeList cache counts l sel path hsh insts).counts (atRuleId name) ∧
          ∃ rule sub subc,
            assocGet (stylizeList cache counts l sel path hsh insts).cache (atRuleId name) =
              some (CNode.atRuleNode rule sub subc) ∧ Sat sub subc ts) ∧
        (isAtRule name = false →
          Sat (stylizeList cache counts l sel path hsh insts).cache
            (stylizeList cache counts l sel path hsh insts).counts ts)) := by
  intro r
  induction r using Nat.strong_induction_on with
  | _ r ih =>
    constructor
    · intro styles cache counts sel path hsh insts hr hwf
      rw [stylize_unfold]
      obtain ⟨hext1, hwf1⟩ := styleAdd_ext_wf hwf (layerString styles)
      obtain ⟨hext2, hwf2⟩ := (stylize_ext_wf (2 * uslSize (parseUserStyles styles).nestedStyles)).2
        (parseUserStyles styles).nestedStyles _ _ sel path _ _ (Nat.le_refl _) hwf1
      refine Sat.mk _ _ styles ?_ ?_ ?_ ?_ ?_
      · have hpos : 0 < countOf (bumpCounts counts (styleId (layerString styles)))
            (styleId (layerString styles)) := by
          rw [countOf_bumpCounts_self]
          omega
        exact Nat.lt_of_lt_of_le hpos (hext2.2 _)
      · intro name ts hmem hat
        exact ((ih (2 * uslSize (parseUserStyles styles).nestedStyles)
            (by have := uslSize_nested_le styles; omega)).2
          (parseUserStyles styles).nestedStyles _ _ sel path _ _ (Nat.le_refl _) hwf1
          name ts hmem).1 hat |>.1
      · intro name ts hmem hat
        obtain ⟨rule, sub, subc, hget, _⟩ := ((ih (2 * uslSize (parseUserStyles styles).nestedStyles)
            (by have := uslSize_nested_le styles; omega)).2
          (parseUserStyles styles).nestedStyles _ _ sel path _ _ (Nat.le_refl _) hwf1
          name ts hmem).1 hat |>.2
        exact ⟨rule, sub, subc, hget⟩
      · intro name ts rule' sub' subc' hmem hat hget'
        obtain ⟨rule, sub, subc, hget, hsat⟩ :=
          ((ih (2 * uslSize (parseUserStyles styles).nestedStyles)
              (by have := uslSize_nested_le styles; omega)).2
            (parseUserStyles styles).nestedStyles _ _ sel path _ _ (Nat.le_refl _) hwf1
            name ts hmem).1 hat |>.2
        rw [hget'] at hget
        obtain hEq : CNode.atRuleNode rule' sub' subc' = CNode.atRuleNode rule sub subc :=
          Option.some.inj hget
        obtain ⟨rfl, rfl, rfl⟩ : rule' = rule ∧ sub' = sub ∧ subc' = subc := by
          injection hEq with h1 h2 h3
          exact ⟨h1, h2, h3⟩
        exact hsat
      · intro name ts hmem hat
        exact ((ih (2 * uslSize (parseUserStyles styles).nestedStyles)
            (by have := uslSize_nested_le styles; omega)).2
          (parseUserStyles styles).nestedStyles _ _ sel path _ _ (Nat.le_refl _) hwf1
          name ts hmem).2 hat
    · intro l cache counts sel path hsh insts hr hwf
      match l with
      | [] =>
        intro name ts hmem
        exact absurd hmem (List.not_mem_nil _)
      | (name₁, ts₁) :: rest =>
        rw [uslSize] at hr
        intro name ts hmem
        by_cases hat1 : isAtRule name₁
        · rw [stylizeList_unfold_at hat1]
          obtain ⟨hext1, hwf1⟩ := atAdd_ext_wf hwf name₁
          have hposaid : 0 < countOf (bumpCounts counts (atRuleId name₁)) (atRuleId name₁) := by
            rw [countOf_bumpCounts_self]
            omega
          rcases childOf_spec hwf1 name₁ with
            ⟨r₀, sub₀, subc₀, hg, hchild, hsubwf⟩ | ⟨hg, hchild⟩
          · rw [hchild]
            simp only [CNode.subCacheOf, CNode.subCountsOf, CNode.withSub]
            obtain ⟨hextR, hwfR⟩ := (stylize_ext_wf (2 * ussize ts₁ + 1)).1 ts₁ sub₀ subc₀
              sel (path ++ [atRuleId name₁]) hsh insts (Nat.le_refl _) hsubwf
            have hsatR := (ih (2 * ussize ts₁ + 1) (by omega)).1 ts₁ sub₀ subc₀
              sel (path ++ [atRuleId name₁]) hsh insts (Nat.le_refl _) hsubwf
            obtain ⟨hext3, hwf3⟩ := writeback_ext_wf hwf1 hg hposaid hextR hwfR
            obtain ⟨hext4, hwf4⟩ := (stylize_ext_wf (2 * uslSize rest)).2 rest _ _ sel path _ _
              (Nat.le_refl _) hwf3
            rcases List.mem_cons.mp hmem with hmem | hmem
            · obtain ⟨rfl, rfl⟩ : name = name₁ ∧ ts = ts₁ := by
                injection hmem with h1 h2
                exact ⟨h1, h2⟩
              constructor
              · intro _
                refine ⟨Nat.lt_of_lt_of_le hposaid (hext4.2 _), ?_⟩
                obtain ⟨n', hget', hne⟩ := hext4.1.get
                  (assocGet_assocSet_self _ (atRuleId name) _)
                cases hne with
                | atRuleNode _ _ sub'' _ subc'' hsome hsub hsubc =>
                  exact ⟨_, sub'', subc'', hget',
                    (hsatR.mono ⟨⟨hsome, hsub⟩, hsubc⟩)⟩
              · intro hcontra
                rw [hat1] at hcontra
                exact absurd hcontra (by decide)
            · exact (ih (2 * uslSize rest) (by omega)).2 rest _ _ sel path _ _
                (Nat.le_refl _) hwf3 name ts hmem
          · rw [hchild]
            simp only [CNode.subCacheOf, CNode.subCountsOf, CNode.withSub]
            obtain ⟨hextR, hwfR⟩ := (stylize_ext_wf (2 * ussize ts₁ + 1)).1 ts₁ [] []
              sel (path ++ [atRuleId name₁]) hsh insts (Nat.le_refl _) (cacheWF_nil [])
            have hsatR := (ih (2 * ussize ts₁ + 1) (by omega)).1 ts₁ [] []
              sel (path ++ [atRuleId name₁]) hsh insts (Nat.le_refl _) (cacheWF_nil [])
            obtain ⟨hext3, hwf3⟩ := writeback_fresh_ext_wf hwf1 hg hposaid hwfR
            obtain ⟨hext4, hwf4⟩ := (stylize_ext_wf (2 * uslSize rest)).2 rest _ _ sel path _ _
              (Nat.le_refl _) hwf3
            rcases List.mem_cons.mp hmem with hmem | hmem
            · obtain ⟨rfl, rfl⟩ : name = name₁ ∧ ts = ts₁ := by
                injection hmem with h1 h2
                exact ⟨h1, h2⟩
              constructor
              · intro _
                refine ⟨Nat.lt_of_lt_of_le hposaid (hext4.2 _), ?_⟩
                obtain ⟨n', hget', hne⟩ := hext4.1.get
                  (assocGet_assocSet_self _ (atRuleId name) _)
                cases hne with
                | atRuleNode _ _ sub'' _ subc'' hsome hsub hsubc =>
                  exact ⟨_, sub'', subc'', hget',
                    (hsatR.mono ⟨⟨hsome, hsub⟩, hsubc⟩)⟩
              · intro hcontra
                rw [hat1] at hcontra
                exact absurd hcontra (by decide)
            · exact (ih (2 * uslSize rest) (by omega)).2 rest _ _ sel path _ _
                (Nat.le_refl _) hwf3 name ts hmem
        · rw [stylizeList_unfold_not (by rw [Bool.eq_false_iff]; exact hat1)]
          obtain ⟨hext1, hwf1⟩ := (stylize_ext_wf (2 * ussize ts₁ + 1)).1 ts₁ cache counts
            (interpolate name₁ sel) path hsh insts (Nat.le_refl _) hwf
          obtain ⟨hext2, hwf2⟩ := (stylize_ext_wf (2 * uslSize rest)).2 rest _ _ sel path _ _
            (Nat.le_refl _) hwf1
          rcases List.mem_cons.mp hmem with hmem | hmem
          · obtain ⟨rfl, rfl⟩ : name = name₁ ∧ ts = ts₁ := by
              injection hmem with h1 h2
              exact ⟨h1, h2⟩
            have hsat1 := (ih (2 * ussize ts + 1) (by omega)).1 ts cache counts
              (interpolate name sel) path hsh insts (Nat.le_refl _) hwf
            constructor
            · intro hcontra
              exact absurd hcontra hat1
            · intro _
              exact hsat1.mono hext2
          · exact (ih (2 * uslSize rest) (by omega)).2 rest _ _ sel path _ _
              (Nat.le_refl _) hwf1 name ts hmem

/-- The saturation obligations of one pending nested entry. -/
def SatEntry (cache : List (String × CNode)) (counts : List (String × Nat))
    (name : String) (ts : UserStyles) : Prop :=
  (isAtRule name = true →
    0 < countOf counts (atRuleId name) ∧
    ∃ rule sub subc, assocGet cache (atRuleId name) = some (CNode.atRuleNode rule sub subc) ∧
      Sat sub subc ts) ∧
  (isAtRule name = false → Sat cache counts ts)

theorem satEntry_mono {cache : List (String × CNode)} {counts : List (String × Nat)}
    {name : String} {ts : UserStyles} (h : SatEntry cache counts name ts)
    {c' : List (String × CNode)} {k' : List (String × Nat)}
    (hext : StateExt cache counts c' k') : SatEntry c' k' name ts := by
  constructor
  · intro hat
    obtain ⟨hpos, rule, sub, subc, hget, hsat⟩ := h.1 hat
    refine ⟨Nat.lt_of_lt_of_le hpos (hext.2 _), ?_⟩
    obtain ⟨n', hget', hne⟩ := hext.1.get hget
    cases hne with
    | atRuleNode _ _ sub' _ subc' hsome hsub hsubc =>
      exact ⟨rule, sub', subc', hget', hsat.mono ⟨⟨hsome, hsub⟩, hsubc⟩⟩
  · intro hat
    exact (h.2 hat).mono hext

theorem sat_entries {cache : List (String × CNode)} {counts : List (String × Nat)}
    {styles : UserStyles} (hsat : Sat cache counts styles) :
    0 < countOf counts (styleId (layerString styles)) ∧
    ∀ name ts, (name, ts) ∈ (parseUserStyles styles).nestedStyles →
      SatEntry cache counts name ts := by
  cases hsat with
  | mk _ _ _ h1 h2 h3 h4 h5 =>
    refine ⟨h1, ?_⟩
    intro name ts hmem
    constructor
    · intro hat
      obtain ⟨rule, sub, subc, hget⟩ := h3 name ts hmem hat
      exact ⟨h2 name ts hmem hat, rule, sub, subc, hget, h4 name ts rule sub subc hmem hat hget⟩
    · intro hat
      exact h5 name ts hmem hat

theorem styleAddCache_of_pos {cache : List (String × CNode)} {counts : List (String × Nat)}
    {ss : String} (h : 0 < countOf counts (styleId ss)) :
    styleAddCache cache counts ss = cache := by
  rw [styleAddCache, if_neg (by omega)]

theorem atAddCache_of_pos {cache : List (String × CNode)} {counts : List (String × Nat)}
    {name : String} (h : 0 < countOf counts (atRuleId name)) :
    atAddCache cache counts name = cache := by
  rw [atAddCache, if_neg (by omega)]

theorem bumpCounts_stateExt (cache : List (String × CNode)) (counts : List (String × Nat))
    (k : String) : StateExt cache counts cache (bumpCounts counts k) :=
  ⟨cacheExt_rfl cache, by
    rw [bumpCounts]
    exact countOf_le_assocSet (by omega)⟩

/-- Compiling a tree over a state saturated for it leaves the
count-erased cache unchanged (rank-indexed mutual statement). -/
theorem stylize_noop : ∀ r : Nat,
    (∀ styles cache counts sel path hsh insts,
      2 * ussize styles + 1 ≤ r → CacheWF cache counts → Sat cache counts styles →
      eraseList (stylize cache counts styles sel path hsh insts).cache = eraseList cache) ∧
    (∀ l cache counts sel path hsh insts,
      2 * uslSize l ≤ r → CacheWF cache counts →
      (∀ name ts, (name, ts) ∈ l → SatEntry cache counts name ts) →
      eraseList (stylizeList cache counts l sel path hsh insts).cache = eraseList cache) := by
  intro r
  induction r using Nat.strong_induction_on with
  | _ r ih =>
    constructor
    · intro styles cache counts sel path hsh insts hr hwf hsat
      obtain ⟨hstyle, hentries⟩ := sat_entries hsat
      rw [stylize_unfold, styleAddCache_of_pos hstyle]
      have hbump := bumpCounts_stateExt cache counts (styleId (layerString styles))
      refine (ih (2 * uslSize (parseUserStyles styles).nestedStyles)
          (by have := uslSize_nested_le styles; omega)).2
        (parseUserStyles styles).nestedStyles _ _ sel path _ _ (Nat.le_refl _) ?_ ?_
      · refine ⟨hwf.1, ?_, hwf.2.2⟩
        intro j hj
        exact Nat.lt_of_lt_of_le (hwf.2.1 j hj) (hbump.2 j)
      · intro name ts hmem
        exact satEntry_mono (hentries name ts hmem) hbump
    · intro l cache counts sel path hsh insts hr hwf hents
      match l with
      | [] => rw [stylizeList_nil]
      | (name₁, ts₁) :: rest =>
        rw [uslSize] at hr
        by_cases hat1 : isAtRule name₁
        · obtain ⟨hpos, rule, sub, subc, hget, hsat⟩ :=
            (hents name₁ ts₁ (List.mem_cons_self _ _)).1 hat1
          rw [stylizeList_unfold_at hat1, atAddCache_of_pos hpos]
          rw [childOf, hget]
          simp only [Option.getD, CNode.subCacheOf, CNode.subCountsOf, CNode.withSub]
          have hsubwf : CacheWF sub subc :=
            (nodeWF_atRule_iff _ _ _).mp (nodeWF_of_assocGet hwf.1 hget)
          have hRerase := (ih (2 * ussize ts₁ + 1) (by omega)).1 ts₁ sub subc
            sel (path ++ [atRuleId name₁]) hsh insts (Nat.le_refl _) hsubwf hsat
          obtain ⟨hextR, hwfR⟩ := (stylize_ext_wf (2 * ussize ts₁ + 1)).1 ts₁ sub subc
            sel (path ++ [atRuleId name₁]) hsh insts (Nat.le_refl _) hsubwf
          have herase2 : eraseList (assocSet cache (atRuleId name₁)
              (CNode.atRuleNode rule
                (stylize sub subc ts₁ sel (path ++ [atRuleId name₁]) hsh insts).cache
                (stylize sub subc ts₁ sel (path ++ [atRuleId name₁]) hsh insts).counts)) =
              eraseList cache := by
            refine eraseList_assocSet_of_same hget ?_
            rw [eraseNode, eraseNode, hRerase]
          have hposb : 0 < countOf (bumpCounts counts (atRuleId name₁)) (atRuleId name₁) := by
            rw [countOf_bumpCounts_self]
            omega
          have hbump := bumpCounts_stateExt cache counts (atRuleId name₁)
          have hwfbump : CacheWF cache (bumpCounts counts (atRuleId name₁)) := by
            refine ⟨hwf.1, ?_, hwf.2.2⟩
            intro j hj
            exact Nat.lt_of_lt_of_le (hwf.2.1 j hj) (hbump.2 j)
          obtain ⟨hext3, hwf3⟩ := writeback_ext_wf hwfbump hget hposb hextR hwfR
          have hents3 : ∀ name ts, (name, ts) ∈ rest →
              SatEntry (assocSet cache (atRuleId name₁)
                (CNode.atRuleNode rule
                  (stylize sub subc ts₁ sel (path ++ [atRuleId name₁]) hsh insts).cache
                  (stylize sub subc ts₁ sel (path ++ [atRuleId name₁]) hsh insts).counts))
                (bumpCounts counts (atRuleId name₁)) name ts := by
            intro name ts hmem
            exact satEntry_mono (hents name ts (List.mem_cons_of_mem _ hmem))
              (stateExt_trans hbump ⟨hext3, fun i => Nat.le_refl _⟩)
          have htail := (ih (2 * uslSize rest) (by omega)).2 rest _ _ sel path
            (stylize sub subc ts₁ sel (path ++ [atRuleId name₁]) hsh insts).hsh
            (stylize sub subc ts₁ sel (path ++ [atRuleId name₁]) hsh insts).insts
            (Nat.le_refl _) hwf3 hents3
          rw [htail, herase2]
        · have hsat1 := (hents name₁ ts₁ (List.mem_cons_self _ _)).2
            (by rw [Bool.eq_false_iff]; exact hat1)
          rw [stylizeList_unfold_not (by rw [Bool.eq_false_iff]; exact hat1)]
          have hRerase := (ih (2 * ussize ts₁ + 1) (by omega)).1 ts₁ cache counts
            (interpolate name₁ sel) path hsh insts (Nat.le_refl _) hwf hsat1
          obtain ⟨hextR, hwfR⟩ := (stylize_ext_wf (2 * ussize ts₁ + 1)).1 ts₁ cache counts
            (interpolate name₁ sel) path hsh insts (Nat.le_refl _) hwf
          have hentsR : ∀ name ts, (name, ts) ∈ rest →
              SatEntry (stylize cache counts ts₁ (interpolate name₁ sel) path hsh insts).cache
                (stylize cache counts ts₁ (interpolate name₁ sel) path hsh insts).counts
                name ts := by
            intro name ts hmem
            exact satEntry_mono (hents name ts (List.mem_cons_of_mem _ hmem)) hextR
          have htail := (ih (2 * uslSize rest) (by omega)).2 rest _ _ sel path
            (stylize cache counts ts₁ (interpolate name₁ sel) path hsh insts).hsh
            (stylize cache counts ts₁ (interpolate name₁ sel) path hsh insts).insts
            (Nat.le_refl _) hwfR hentsR
          rw [htail, hRerase]

/-! ## The reverse counting invariant

`Cache.add` in the source tests presence in `_cache`; the embedding tests
the counter.  The two agree on states where a positive count implies a
stored entry; that implication is itself preserved by every step of the
walk, which the next block establishes. -/

mutual

/-- Reverse counting invariant of one node. -/
def nodeRev : CNode → Prop
  | .styleNode _ _ _ => True
  | .atRuleNode _ sub subc =>
      listRev sub ∧ ∀ k, 0 < countOf subc k → (assocGet sub k).isSome

/-- Reverse counting invariant of all nodes of a container cache. -/
def listRev : List (String × CNode) → Prop
  | [] => True
  | (_, n) :: rest => nodeRev n ∧ listRev rest

end

/-- Reverse counting invariant of a (cache, counts) container state:
every positively counted id is stored. -/
def CacheRev (cache : List (String × CNode)) (counts : List (String × Nat)) : Prop :=
  listRev cache ∧ ∀ k, 0 < countOf counts k → (assocGet cache k).isSome

theorem cacheRev_nil : CacheRev [] [] := by
  refine ⟨trivial, ?_⟩
  intro k h
  rw [countOf] at h
  simp [assocGet] at h

theorem nodeRev_of_mem {l : List (String × CNode)} {p : String × CNode}
    (hrev : listRev l) (h : p ∈ l) : nodeRev p.2 := by
  induction l with
  | nil => exact absurd h (List.not_mem_nil p)
  | cons q rest ih =>
    obtain ⟨k, n⟩ := q
    obtain ⟨hn, hrest⟩ := hrev
    rcases List.mem_cons.mp h with h | h
    · rw [h]
      exact hn
    · exact ih hrest h

theorem nodeRev_of_assocGet {l : List (String × CNode)} {k : String} {n : CNode}
    (hrev : listRev l) (h : assocGet l k = some n) : nodeRev n :=
  nodeRev_of_mem (p := (k, n)) hrev (mem_of_assocGet_eq_some h)

theorem listRev_assocSet {l : List (String × CNode)} {k : String} {v : CNode}
    (hrev : listRev l) (hv : nodeRev v) : listRev (assocSet l k v) := by
  induction l with
  | nil => exact ⟨hv, trivial⟩
  | cons q rest ih =>
    obtain ⟨kq, n⟩ := q
    obtain ⟨hn, hrest⟩ := hrev
    rw [assocSet]
    by_cases hk : kq = k
    · rw [if_pos hk]
      exact ⟨hv, hrest⟩
    · rw [if_neg hk]
      exact ⟨hn, ih hrest⟩

theorem assocGet_isSome_assocSet {α : Type} (l : List (String × α)) (k : String) (v : α)
    (j : String) (h : (assocGet l j).isSome) : (assocGet (assocSet l k v) j).isSome := by
  by_cases hjk : j = k
  · subst hjk
    rw [assocGet_assocSet_self]
    rfl
  · rw [assocGet_assocSet_ne _ _ _ _ hjk]
    exact h

theorem eq_styleNode_of_id {n : CNode} {s : String} (h : CNode.id n = styleId s) :
    ∃ st sc scc, n = CNode.styleNode st sc scc := by
  cases n with
  | styleNode st sc scc => exact ⟨st, sc, scc, rfl⟩
  | atRuleNode r₀ sub subc =>
    exfalso
    rw [CNode.id] at h
    have h1 : (atRuleId r₀).data.head? = some 'a' := rfl
    rw [h] at h1
    have h2 : (styleId s).data.head? = some 'n' := rfl
    rw [h1] at h2
    exact absurd h2 (by decide)

theorem cacheAdd_rev {cache : List (String × CNode)} {counts : List (String × Nat)}
    (hrev : CacheRev cache counts) (k : String) (v : CNode) (hv : nodeRev v) :
    CacheRev (if countOf counts k = 0 then assocSet cache k v else cache)
      (assocSet counts k (countOf counts k + 1)) := by
  by_cases h0 : countOf counts k = 0
  · rw [if_pos h0]
    refine ⟨listRev_assocSet hrev.1 hv, ?_⟩
    intro j hj
    by_cases hjk : j = k
    · subst hjk
      rw [assocGet_assocSet_self]
      rfl
    · rw [countOf_assocSet_ne _ _ _ _ hjk] at hj
      exact assocGet_isSome_assocSet _ _ _ _ (hrev.2 j hj)
  · rw [if_neg h0]
    refine ⟨hrev.1, ?_⟩
    intro j hj
    by_cases hjk : j = k
    · subst hjk
      exact hrev.2 j (by omega)
    · rw [countOf_assocSet_ne _ _ _ _ hjk] at hj
      exact hrev.2 j hj

theorem styleAdd_rev {cache : List (String × CNode)} {counts : List (String × Nat)}
    (hrev : CacheRev cache counts) (ss : String) :
    CacheRev (styleAddCache cache counts ss) (bumpCounts counts (styleId ss)) := by
  unfold styleAddCache bumpCounts
  exact cacheAdd_rev hrev (styleId ss) (CNode.styleNode ss [] []) trivial

theorem atAdd_rev {cache : List (String × CNode)} {counts : List (String × Nat)}
    (hrev : CacheRev cache counts) (name : String) :
    CacheRev (atAddCache cache counts name) (bumpCounts counts (atRuleId name)) := by
  unfold atAddCache bumpCounts
  exact cacheAdd_rev hrev (atRuleId name) (CNode.atRuleNode name [] [])
    ⟨trivial, fun k h => by rw [countOf] at h; simp [assocGet] at h⟩

theorem writeback_rev {cache1 : List (String × CNode)} {counts1 : List (String × Nat)}
    (hrev1 : CacheRev cache1 counts1) {aid r₀ : String} {sub' : List (String × CNode)}
    {subc' : List (String × Nat)} (hrev' : CacheRev sub' subc') :
    CacheRev (assocSet cache1 aid (CNode.atRuleNode r₀ sub' subc')) counts1 := by
  refine ⟨listRev_assocSet hrev1.1 hrev', ?_⟩
  intro j hj
  exact assocGet_isSome_assocSet _ _ _ _ (hrev1.2 j hj)

theorem containerAt_cons_of_get {cache : List (String × CNode)} {aid rule : String}
    {sub : List (String × CNode)} {subc : List (String × Nat)} (rest : List String)
    (hg : assocGet cache aid = some (CNode.atRuleNode rule sub subc)) :
    containerAt cache (aid :: rest) = containerAt sub rest := by
  rw [containerAt, hg]

/-- Placement of the recorded style instances: compiling a tree from a
well-formed state satisfying the reverse counting invariant preserves that
invariant, and every recorded instance either was recorded before the call
or names a `Style` node stored in the result at a container path below the
call's path (rank-indexed mutual statement). -/
theorem stylize_insts : ∀ r : Nat,
    (∀ styles cache counts sel path hsh insts,
      2 * ussize styles + 1 ≤ r → CacheWF cache counts → CacheRev cache counts →
      CacheRev (stylize cache counts styles sel path hsh insts).cache
        (stylize cache counts styles sel path hsh insts).counts ∧
      ∀ inst ∈ (stylize cache counts styles sel path hsh insts).insts,
        inst ∈ insts ∨ ∃ suffix, inst.1 = path ++ suffix ∧
          StylePresentAt (stylize cache counts styles sel path hsh insts).cache
            suffix inst.2.1) ∧
    (∀ l cache counts sel path hsh insts,
      2 * uslSize l ≤ r → CacheWF cache counts → CacheRev cache counts →
      CacheRev (stylizeList cache counts l sel path hsh insts).cache
        (stylizeList cache counts l sel path hsh insts).counts ∧
      ∀ inst ∈ (stylizeList cache counts l sel path hsh insts).insts,
        inst ∈ insts ∨ ∃ suffix, inst.1 = path ++ suffix ∧
          StylePresentAt (stylizeList cache counts l sel path hsh insts).cache
            suffix inst.2.1) := by
  intro r
  induction r using Nat.strong_induction_on with
  | _ r ih =>
    constructor
    · intro styles cache counts sel path hsh insts hr hwf hrev
      rw [stylize_unfold]
      obtain ⟨hext1, hwf1⟩ := styleAdd_ext_wf hwf (layerString styles)
      have hrev1 := styleAdd_rev hrev (layerString styles)
      have hpresent1 : StylePresentAt (styleAddCache cache counts (layerString styles)) []
          (styleId (layerString styles)) := by
        refine ⟨styleAddCache cache counts (layerString styles), rfl, ?_⟩
        by_cases h0 : countOf counts (styleId (layerString styles)) = 0
        · rw [styleAddCache, if_pos h0]
          exact ⟨layerString styles, [], [], assocGet_assocSet_self _ _ _⟩
        · rw [styleAddCache, if_neg h0]
          obtain ⟨n, hn⟩ := Option.isSome_iff_exists.mp
            (hrev.2 (styleId (layerString styles)) (by omega))
          obtain ⟨st, sc, scc, rfl⟩ := eq_styleNode_of_id (hwf.2.2 _ n hn)
          exact ⟨st, sc, scc, hn⟩
      obtain ⟨hrev2, hplace2⟩ := (ih (2 * uslSize (parseUserStyles styles).nestedStyles)
          (by have := uslSize_nested_le styles; omega)).2
        (parseUserStyles styles).nestedStyles _ _ sel path _ _ (Nat.le_refl _) hwf1 hrev1
      refine ⟨hrev2, ?_⟩
      intro inst hmem
      rcases hplace2 inst hmem with hin | hp
      · rcases List.mem_append.mp hin with h | h
        · exact Or.inl h
        · have hinst : inst = (path, styleId (layerString styles), sel) :=
            List.mem_singleton.mp h
          subst hinst
          refine Or.inr ⟨[], (List.append_nil path).symm, ?_⟩
          have hextL := ((stylize_ext_wf
              (2 * uslSize (parseUserStyles styles).nestedStyles)).2
            (parseUserStyles styles).nestedStyles _ _ sel path
            (hash (layerString styles) (some (hash sel (some hsh))))
            (insts ++ [(path, styleId (layerString styles), sel)])
            (Nat.le_refl _) hwf1).1
          exact stylePresentAt_mono hextL.1 hpresent1
      · exact Or.inr hp
    · intro l cache counts sel path hsh insts hr hwf hrev
      match l with
      | [] =>
        rw [stylizeList_nil]
        exact ⟨hrev, fun inst h => Or.inl h⟩
      | (name, ts) :: rest =>
        rw [uslSize] at hr
        by_cases hat : isAtRule name
        · rw [stylizeList_unfold_at hat]
          obtain ⟨hext1, hwf1⟩ := atAdd_ext_wf hwf name
          have hrev1 := atAdd_rev hrev name
          have hposaid : 0 < countOf (bumpCounts counts (atRuleId name)) (atRuleId name) := by
            rw [countOf_bumpCounts_self]
            omega
          rcases childOf_spec hwf1 name with
            ⟨r₀, sub₀, subc₀, hg, hchild, hsubwf⟩ | ⟨hg, hchild⟩
          · rw [hchild]
            simp only [CNode.subCacheOf, CNode.subCountsOf, CNode.withSub]
            have hsubrev : CacheRev sub₀ subc₀ := nodeRev_of_assocGet hrev1.1 hg
            obtain ⟨hrevR, hplaceR⟩ := (ih (2 * ussize ts + 1) (by omega)).1 ts sub₀ subc₀
              sel (path ++ [atRuleId name]) hsh insts (Nat.le_refl _) hsubwf hsubrev
            obtain ⟨hextR, hwfR⟩ := (stylize_ext_wf (2 * ussize ts + 1)).1 ts sub₀ subc₀
              sel (path ++ [atRuleId name]) hsh insts (Nat.le_refl _) hsubwf
            obtain ⟨hext3, hwf3⟩ := writeback_ext_wf hwf1 hg hposaid hextR hwfR
            have hrev3 := @writeback_rev _ _ hrev1 (atRuleId name) r₀ _ _ hrevR
            obtain ⟨hrev4, hplace4⟩ := (ih (2 * uslSize rest) (by omega)).2 rest _ _ sel path
              _ _ (Nat.le_refl _) hwf3 hrev3
            refine ⟨hrev4, ?_⟩
            intro inst hmem
            rcases hplace4 inst hmem with hin | hp
            · rcases hplaceR inst hin with hin0 | ⟨suffix, hsuf, hpres⟩
              · exact Or.inl hin0
              · refine Or.inr ⟨atRuleId name :: suffix, ?_, ?_⟩
                · rw [hsuf, List.append_assoc]
                  rfl
                · have hp2 : StylePresentAt (assocSet (atAddCache cache counts name)
                      (atRuleId name) (CNode.atRuleNode r₀
                        (stylize sub₀ subc₀ ts sel (path ++ [atRuleId name]) hsh insts).cache
                        (stylize sub₀ subc₀ ts sel (path ++ [atRuleId name]) hsh insts).counts))
                      (atRuleId name :: suffix) inst.2.1 := by
                    obtain ⟨s', hs', hsty⟩ := hpres
                    refine ⟨s', ?_, hsty⟩
                    rw [containerAt_cons_of_get suffix (assocGet_assocSet_self _ _ _)]
                    exact hs'
                  have hext4 := ((stylize_ext_wf (2 * uslSize rest)).2 rest _ _ sel path
                    (stylize sub₀ subc₀ ts sel (path ++ [atRuleId name]) hsh insts).hsh
                    (stylize sub₀ subc₀ ts sel (path ++ [atRuleId name]) hsh insts).insts
                    (Nat.le_refl _) hwf3).1
                  exact stylePresentAt_mono hext4.1 hp2
            · exact Or.inr hp
          · rw [hchild]
            simp only [CNode.subCacheOf, CNode.subCountsOf, CNode.withSub]
            obtain ⟨hrevR, hplaceR⟩ := (ih (2 * ussize ts + 1) (by omega)).1 ts [] []
              sel (path ++ [atRuleId name]) hsh insts (Nat.le_refl _) (cacheWF_nil [])
              cacheRev_nil
            obtain ⟨hextR, hwfR⟩ := (stylize_ext_wf (2 * ussize ts + 1)).1 ts [] []
              sel (path ++ [atRuleId name]) hsh insts (Nat.le_refl _) (cacheWF_nil [])
            obtain ⟨hext3, hwf3⟩ := writeback_fresh_ext_wf hwf1 hg hposaid hwfR
            have hrev3 := @writeback_rev _ _ hrev1 (atRuleId name) name _ _ hrevR
            obtain ⟨hrev4, hplace4⟩ := (ih (2 * uslSize rest) (by omega)).2 rest _ _ sel path
              _ _ (Nat.le_refl _) hwf3 hrev3
            refine ⟨hrev4, ?_⟩
            intro inst hmem
            rcases hplace4 inst hmem with hin | hp
            · rcases hplaceR inst hin with hin0 | ⟨suffix, hsuf, hpres⟩
              · exact Or.inl hin0
              · refine Or.inr ⟨atRuleId name :: suffix, ?_, ?_⟩
                · rw [hsuf, List.append_assoc]
                  rfl
                · have hp2 : StylePresentAt (assocSet (atAddCache cache counts name)
                      (atRuleId name) (CNode.atRuleNode name
                        (stylize [] [] ts sel (path ++ [atRuleId name]) hsh insts).cache
                        (stylize [] [] ts sel (path ++ [atRuleId name]) hsh insts).counts))
                      (atRuleId name :: suffix) inst.2.1 := by
                    obtain ⟨s', hs', hsty⟩ := hpres
                    refine ⟨s', ?_, hsty⟩
                    rw [containerAt_cons_of_get suffix (assocGet_assocSet_self _ _ _)]
                    exact hs'
                  have hext4 := ((stylize_ext_wf (2 * uslSize rest)).2 rest _ _ sel path
                    (stylize [] [] ts sel (path ++ [atRuleId name]) hsh insts).hsh
                    (stylize [] [] ts sel (path ++ [atRuleId name]) hsh insts).insts
                    (Nat.le_refl _) hwf3).1
                  exact stylePresentAt_mono hext4.1 hp2
            · exact Or.inr hp
        · rw [stylizeList_unfold_not (by rw [Bool.eq_false_iff]; exact hat)]
          obtain ⟨hrevR, hplaceR⟩ := (ih (2 * ussize ts + 1) (by omega)).1 ts cache counts
            (interpolate name sel) path hsh insts (Nat.le_refl _) hwf hrev
          obtain ⟨hextR, hwfR⟩ := (stylize_ext_wf (2 * ussize ts + 1)).1 ts cache counts
            (interpolate name sel) path hsh insts (Nat.le_refl _) hwf
          obtain ⟨hrev2, hplace2⟩ := (ih (2 * uslSize rest) (by omega)).2 rest _ _ sel path
            _ _ (Nat.le_refl _) hwfR hrevR
          refine ⟨hrev2, ?_⟩
          intro inst hmem
          rcases hplace2 inst hmem with hin | hp
          · rcases hplaceR inst hin with h0 | ⟨suffix, hsuf, hpres⟩
            · exact Or.inl h0
            · refine Or.inr ⟨suffix, hsuf, ?_⟩
              have hext2 := ((stylize_ext_wf (2 * uslSize rest)).2 rest _ _ sel path
                (stylize cache counts ts (interpolate name sel) path hsh insts).hsh
                (stylize cache counts ts (interpolate name sel) path hsh insts).insts
                (Nat.le_refl _) hwfR).1
              exact stylePresentAt_mono hext2.1 hpres
          · exact Or.inr hp

/-! ## The final selector loop of `registerUserStyles` -/

theorem addSelectorAt_nil_style {cache : List (String × CNode)} {sid : String} {st : String}
    {sc : List (String × String)} {scc : List (String × Nat)} (sel : String)
    (hg : assocGet cache sid = some (CNode.styleNode st sc scc)) :
    addSelectorAt cache [] sid sel =
      assocSet cache sid (CNode.styleNode st
        (if countOf scc (selectorId sel) = 0
          then assocSet sc (selectorId sel) sel else sc)
        (assocSet scc (selectorId sel) (countOf scc (selectorId sel) + 1))) := by
  rw [addSelectorAt, hg]

theorem addSelectorAt_nil_none {cache : List (String × CNode)} {sid : String} (sel : String)
    (hg : assocGet cache sid = none) : addSelectorAt cache [] sid sel = cache := by
  rw [addSelectorAt, hg]

theorem addSelectorAt_nil_at {cache : List (String × CNode)} {sid : String} (sel : String)
    {r₀ : String} {sub : List (String × CNode)} {subc : List (String × Nat)}
    (hg : assocGet cache sid = some (CNode.atRuleNode r₀ sub subc)) :
    addSelectorAt cache [] sid sel = cache := by
  rw [addSelectorAt, hg]

theorem addSelectorAt_cons_at {cache : List (String × CNode)} {aid : String}
    (rest : List String) {sid : String} (sel : String) {rule : String}
    {sub : List (String × CNode)} {subc : List (String × Nat)}
    (hg : assocGet cache aid = some (CNode.atRuleNode rule sub subc)) :
    addSelectorAt cache (aid :: rest) sid sel =
      assocSet cache aid (CNode.atRuleNode rule (addSelectorAt sub rest sid sel) subc) := by
  rw [addSelectorAt, hg]

theorem addSelectorAt_cons_none {cache : List (String × CNode)} {aid : String}
    (rest : List String) {sid : String} (sel : String)
    (hg : assocGet cache aid = none) : addSelectorAt cache (aid :: rest) sid sel = cache := by
  rw [addSelectorAt, hg]

theorem addSelectorAt_cons_style {cache : List (String × CNode)} {aid : String}
    (rest : List String) {sid : String} (sel : String) {st : String}
    {sc : List (String × String)} {scc : List (String × Nat)}
    (hg : assocGet cache aid = some (CNode.styleNode st sc scc)) :
    addSelectorAt cache (aid :: rest) sid sel = cache := by
  rw [addSelectorAt, hg]

/-- `style.add(new Selector(...))` only extends the node hierarchy: the
container extension order holds, well-formedness and the reverse counting
invariant are preserved, no top-level entry appears or disappears, and
every stored node keeps its id. -/
theorem addSelectorAt_ext : ∀ (path : List String) (cache : List (String × CNode))
    (sid sel : String), listWF cache → listRev cache →
    CacheExt cache (addSelectorAt cache path sid sel) ∧
    listWF (addSelectorAt cache path sid sel) ∧
    listRev (addSelectorAt cache path sid sel) ∧
    (∀ k, (assocGet (addSelectorAt cache path sid sel) k).isSome →
      (assocGet cache k).isSome) ∧
    (∀ k n, assocGet (addSelectorAt cache path sid sel) k = some n →
      ∃ n₀, assocGet cache k = some n₀ ∧ CNode.id n = CNode.id n₀) := by
  intro path
  induction path with
  | nil =>
    intro cache sid sel hwfl hrevl
    cases hg : assocGet cache sid with
    | none =>
      rw [addSelectorAt_nil_none sel hg]
      exact ⟨cacheExt_rfl cache, hwfl, hrevl, fun _ h => h,
        fun k n hn => ⟨n, hn, rfl⟩⟩
    | some node =>
      cases node with
      | atRuleNode r₀ sub subc =>
        rw [addSelectorAt_nil_at sel hg]
        exact ⟨cacheExt_rfl cache, hwfl, hrevl, fun _ h => h,
          fun k n hn => ⟨n, hn, rfl⟩⟩
      | styleNode st sc scc =>
        rw [addSelectorAt_nil_style sel hg]
        have hwfn : nodeWF (CNode.styleNode st sc scc) := nodeWF_of_assocGet hwfl hg
        have hnew : NodeExt (CNode.styleNode st sc scc)
            (CNode.styleNode st
              (if countOf scc (selectorId sel) = 0
                then assocSet sc (selectorId sel) sel else sc)
              (assocSet scc (selectorId sel) (countOf scc (selectorId sel) + 1))) := by
          refine NodeExt.styleNode st _ _ _ _ ?_ (countOf_le_assocSet (by omega))
          intro k v hv
          by_cases h0 : countOf scc (selectorId sel) = 0
          · rw [if_pos h0]
            by_cases hk : k = selectorId sel
            · subst hk
              have := hwfn (selectorId sel) (by rw [hv]; rfl)
              omega
            · rw [assocGet_assocSet_ne _ _ _ _ hk]
              exact hv
          · rw [if_neg h0]
            exact hv
        have hwfn' : nodeWF (CNode.styleNode st
            (if countOf scc (selectorId sel) = 0
              then assocSet sc (selectorId sel) sel else sc)
            (assocSet scc (selectorId sel) (countOf scc (selectorId sel) + 1))) := by
          intro k hk
          by_cases hki : k = selectorId sel
          · subst hki
            rw [countOf_assocSet_self]
            omega
          · rw [countOf_assocSet_ne _ _ _ _ hki]
            by_cases h0 : countOf scc (selectorId sel) = 0
            · rw [if_pos h0] at hk
              rw [assocGet_assocSet_ne _ _ _ _ hki] at hk
              exact hwfn k hk
            · rw [if_neg h0] at hk
              exact hwfn k hk
        refine ⟨cacheExt_assocSet_present hg hnew,
          listWF_assocSet hwfl hwfn', listRev_assocSet hrevl trivial, ?_, ?_⟩
        · intro k hk
          by_cases hks : k = sid
          · subst hks
            rw [hg]
            rfl
          · rw [assocGet_assocSet_ne _ _ _ _ hks] at hk
            exact hk
        · intro k n hn
          by_cases hks : k = sid
          · subst hks
            rw [assocGet_assocSet_self] at hn
            obtain rfl := Option.some.inj hn
            exact ⟨CNode.styleNode st sc scc, hg, rfl⟩
          · rw [assocGet_assocSet_ne _ _ _ _ hks] at hn
            exact ⟨n, hn, rfl⟩
  | cons aid rest ih =>
    intro cache sid sel hwfl hrevl
    cases hg : assocGet cache aid with
    | none =>
      rw [addSelectorAt_cons_none rest sel hg]
      exact ⟨cacheExt_rfl cache, hwfl, hrevl, fun _ h => h,
        fun k n hn => ⟨n, hn, rfl⟩⟩
    | some node =>
      cases node with
      | styleNode st sc scc =>
        rw [addSelectorAt_cons_style rest sel hg]
        exact ⟨cacheExt_rfl cache, hwfl, hrevl, fun _ h => h,
          fun k n hn => ⟨n, hn, rfl⟩⟩
      | atRuleNode rule sub subc =>
        rw [addSelectorAt_cons_at rest sel hg]
        have hwfn : nodeWF (CNode.atRuleNode rule sub subc) := nodeWF_of_assocGet hwfl hg
        have hrevn : nodeRev (CNode.atRuleNode rule sub subc) := nodeRev_of_assocGet hrevl hg
        obtain ⟨hsubext, hsubwf, hsubrev, hsubsome, hsubid⟩ :=
          ih sub sid sel hwfn.1 hrevn.1
        have hnew : NodeExt (CNode.atRuleNode rule sub subc)
            (CNode.atRuleNode rule (addSelectorAt sub rest sid sel) subc) :=
          NodeExt.atRuleNode rule _ _ _ _ hsubext.1 hsubext.2 (fun _ => Nat.le_refl _)
        have hwfn' : nodeWF (CNode.atRuleNode rule (addSelectorAt sub rest sid sel) subc) := by
          refine ⟨hsubwf, ?_, ?_⟩
          · intro k hk
            exact hwfn.2.1 k (hsubsome k hk)
          · intro k n hn
            obtain ⟨n₀, hn₀, hid⟩ := hsubid k n hn
            rw [hid]
            exact hwfn.2.2 k n₀ hn₀
        have hrevn' : nodeRev (CNode.atRuleNode rule (addSelectorAt sub rest sid sel) subc) := by
          refine ⟨hsubrev, ?_⟩
          intro k hk
          exact hsubext.1 k (hrevn.2 k hk)
        refine ⟨cacheExt_assocSet_present hg hnew,
          listWF_assocSet hwfl hwfn', listRev_assocSet hrevl hrevn', ?_, ?_⟩
        · intro k hk
          by_cases hks : k = aid
          · subst hks
            rw [hg]
            rfl
          · rw [assocGet_assocSet_ne _ _ _ _ hks] at hk
            exact hk
        · intro k n hn
          by_cases hks : k = aid
          · subst hks
            rw [assocGet_assocSet_self] at hn
            obtain rfl := Option.some.inj hn
            exact ⟨CNode.atRuleNode rule sub subc, hg, rfl⟩
          · rw [assocGet_assocSet_ne _ _ _ _ hks] at hn
            exact ⟨n, hn, rfl⟩

/-- `addSelectorAt` preserves the full container invariants with the
counters unchanged. -/
theorem addSelectorAt_wf_rev {cache : List (String × CNode)} {counts : List (String × Nat)}
    (hwf : CacheWF cache counts) (hrev : CacheRev cache counts)
    (path : List String) (sid sel : String) :
    CacheExt cache (addSelectorAt cache path sid sel) ∧
    CacheWF (addSelectorAt cache path sid sel) counts ∧
    CacheRev (addSelectorAt cache path sid sel) counts := by
  obtain ⟨hext, hwfl, hrevl, hsome, hid⟩ := addSelectorAt_ext path cache sid sel hwf.1 hrev.1
  refine ⟨hext, ⟨hwfl, ?_, ?_⟩, hrevl, ?_⟩
  · intro k hk
    exact hwf.2.1 k (hsome k hk)
  · intro k n hn
    obtain ⟨n₀, hn₀, hid₀⟩ := hid k n hn
    rw [hid₀]
    exact hwf.2.2 k n₀ hn₀
  · intro k hk
    exact hext.1 k (hrev.2 k hk)

/-- `addSelectorAt` installs a positively counted `Selector` at the
targeted style instance. -/
theorem addSelectorAt_pos : ∀ (path : List String) (cache : List (String × CNode))
    (sid sel : String), StylePresentAt cache path sid →
    SelCountPos (addSelectorAt cache path sid sel) path sid sel := by
  intro path
  induction path with
  | nil =>
    intro cache sid sel hpres
    obtain ⟨sub, hsub, st, sc, scc, hget⟩ := hpres
    obtain rfl : cache = sub := Option.some.inj hsub
    rw [addSelectorAt_nil_style sel hget]
    refine ⟨_, rfl, st, _, _, assocGet_assocSet_self _ _ _, ?_⟩
    rw [countOf_assocSet_self]
    omega
  | cons aid rest ih =>
    intro cache sid sel hpres
    obtain ⟨sub, hsub, hsty⟩ := hpres
    rw [containerAt] at hsub
    match hg : assocGet cache aid, hsub with
    | some (CNode.atRuleNode rule sub₀ subc₀), hsub =>
      rw [addSelectorAt_cons_at rest sel hg]
      obtain ⟨s', hs', hrest⟩ := ih sub₀ sid sel ⟨sub, hsub, hsty⟩
      refine ⟨s', ?_, hrest⟩
      rw [containerAt_cons_of_get rest (assocGet_assocSet_self _ _ _)]
      exact hs'

/-- Adding a selector that is already counted at the targeted style
instance leaves the count-erased cache unchanged. -/
theorem eraseList_addSelectorAt : ∀ (path : List String) (cache : List (String × CNode))
    (sid sel : String), SelCountPos cache path sid sel →
    eraseList (addSelectorAt cache path sid sel) = eraseList cache := by
  intro path
  induction path with
  | nil =>
    intro cache sid sel hpos
    obtain ⟨sub, hsub, st, sc, scc, hget, hcount⟩ := hpos
    obtain rfl : cache = sub := Option.some.inj hsub
    rw [addSelectorAt_nil_style sel hget]
    refine eraseList_assocSet_of_same hget ?_
    rw [if_neg (by omega)]
    rfl
  | cons aid rest ih =>
    intro cache sid sel hpos
    obtain ⟨sub, hsub, hsty⟩ := hpos
    rw [containerAt] at hsub
    match hg : assocGet cache aid, hsub with
    | some (CNode.atRuleNode rule sub₀ subc₀), hsub =>
      rw [addSelectorAt_cons_at rest sel hg]
      refine eraseList_assocSet_of_same hg ?_
      rw [eraseNode, eraseNode, ih sub₀ sid sel ⟨sub, hsub, hsty⟩]

/-- The selector loop: starting from a state holding every targeted style
instance, it extends the container state, preserves the invariants, and
leaves every processed instance with a positively counted `Selector`. -/
theorem selLoop_spec (cs : String) : ∀ (insts : List (List String × String × String))
    (cache : List (String × CNode)) (counts : List (String × Nat)),
    CacheWF cache counts → CacheRev cache counts →
    (∀ inst ∈ insts, StylePresentAt cache inst.1 inst.2.1) →
    CacheExt cache (insts.foldl
      (fun c inst => addSelectorAt c inst.1 inst.2.1 (interpolate inst.2.2 cs)) cache) ∧
    CacheWF (insts.foldl
      (fun c inst => addSelectorAt c inst.1 inst.2.1 (interpolate inst.2.2 cs)) cache) counts ∧
    CacheRev (insts.foldl
      (fun c inst => addSelectorAt c inst.1 inst.2.1 (interpolate inst.2.2 cs)) cache) counts ∧
    ∀ inst ∈ insts, SelCountPos (insts.foldl
      (fun c inst => addSelectorAt c inst.1 inst.2.1 (interpolate inst.2.2 cs)) cache)
      inst.1 inst.2.1 (interpolate inst.2.2 cs) := by
  intro insts
  induction insts with
  | nil =>
    intro cache counts hwf hrev _
    exact ⟨cacheExt_rfl cache, hwf, hrev, fun inst h => absurd h (List.not_mem_nil inst)⟩
  | cons inst₀ rest ih =>
    intro cache counts hwf hrev hpres
    rw [List.foldl_cons]
    obtain ⟨hext₁, hwf₁, hrev₁⟩ :=
      addSelectorAt_wf_rev hwf hrev inst₀.1 inst₀.2.1 (interpolate inst₀.2.2 cs)
    have hscp₁ := addSelectorAt_pos inst₀.1 cache inst₀.2.1 (interpolate inst₀.2.2 cs)
      (hpres inst₀ (List.mem_cons_self _ _))
    obtain ⟨hext', hwf', hrev', hscp'⟩ := ih _ counts hwf₁ hrev₁
      (fun inst h => stylePresentAt_mono hext₁ (hpres inst (List.mem_cons_of_mem _ h)))
    refine ⟨cacheExt_trans hext₁ hext', hwf', hrev', ?_⟩
    intro inst hmem
    rcases List.mem_cons.mp hmem with h | h
    · subst h
      exact selCountPos_mono hext' hscp₁
    · exact hscp' inst h

/-- The selector loop over instances whose `Selector`s are already counted
leaves the count-erased cache unchanged. -/
theorem selLoop_noop (cs : String) : ∀ (insts : List (List String × String × String))
    (cache : List (String × CNode)) (counts : List (String × Nat)),
    CacheWF cache counts → CacheRev cache counts →
    (∀ inst ∈ insts, SelCountPos cache inst.1 inst.2.1 (interpolate inst.2.2 cs)) →
    eraseList (insts.foldl
      (fun c inst => addSelectorAt c inst.1 inst.2.1 (interpolate inst.2.2 cs)) cache) =
      eraseList cache := by
  intro insts
  induction insts with
  | nil =>
    intro cache counts _ _ _
    rfl
  | cons inst₀ rest ih =>
    intro cache counts hwf hrev hscp
    rw [List.foldl_cons]
    obtain ⟨hext₁, hwf₁, hrev₁⟩ :=
      addSelectorAt_wf_rev hwf hrev inst₀.1 inst₀.2.1 (interpolate inst₀.2.2 cs)
    have h₀ := eraseList_addSelectorAt inst₀.1 cache inst₀.2.1 (interpolate inst₀.2.2 cs)
      (hscp inst₀ (List.mem_cons_self _ _))
    rw [ih _ counts hwf₁ hrev₁
      (fun inst h => selCountPos_mono hext₁ (hscp inst (List.mem_cons_of_mem _ h))), h₀]

/-! ## Normalized-content congruence of the walk -/

theorem normalizeEntries_insertPair (p : String × UserValue)
    (l : List (String × UserValue)) :
    normalizeEntries (insertPair p l) =
      insertPair (p.1, normalizeValue p.2) (normalizeEntries l) := by
  obtain ⟨k, v⟩ := p
  induction l with
  | nil => rfl
  | cons q rest ih =>
    obtain ⟨kq, vq⟩ := q
    rw [insertPair]
    by_cases hq : keyLt kq k = true
    · rw [if_pos hq, normalizeEntries_cons, ih, normalizeEntries_cons, insertPair, if_pos hq]
    · rw [if_neg hq, normalizeEntries_cons, normalizeEntries_cons, insertPair, if_neg hq]

theorem normalizeEntries_sortPairs (l : List (String × UserValue)) :
    normalizeEntries (sortPairs l) = sortPairs (normalizeEntries l) := by
  induction l with
  | nil => rfl
  | cons p rest ih =>
    obtain ⟨k, v⟩ := p
    rw [sortPairs, normalizeEntries_insertPair, ih, normalizeEntries_cons, sortPairs]

/-- Pointwise relation behind equality of normalized entry lists. -/
def NVEq (p q : String × UserValue) : Prop :=
  p.1 = q.1 ∧ normalizeValue p.2 = normalizeValue q.2

/-- Pointwise relation between nested style lists of normalize-equal
layers. -/
def NSEq (p q : String × UserStyles) : Prop :=
  p.1 = q.1 ∧ normalizeStyles p.2 = normalizeStyles q.2

theorem forall₂_of_normalizeEntries_eq : ∀ {l₁ l₂ : List (String × UserValue)},
    normalizeEntries l₁ = normalizeEntries l₂ → List.Forall₂ NVEq l₁ l₂ := by
  intro l₁
  induction l₁ with
  | nil =>
    intro l₂ h
    cases l₂ with
    | nil => exact List.Forall₂.nil
    | cons q rest₂ =>
      obtain ⟨k₂, v₂⟩ := q
      rw [normalizeEntries_nil, normalizeEntries_cons] at h
      exact absurd h (by intro hc; injection hc)
  | cons p rest ih =>
    intro l₂ h
    obtain ⟨k, v⟩ := p
    cases l₂ with
    | nil =>
      rw [normalizeEntries_cons, normalizeEntries_nil] at h
      exact absurd h (by intro hc; injection hc)
    | cons q rest₂ =>
      obtain ⟨k₂, v₂⟩ := q
      rw [normalizeEntries_cons, normalizeEntries_cons] at h
      have hhead : (k, normalizeValue v) = (k₂, normalizeValue v₂) := by
        injection h
      have htail : normalizeEntries rest = normalizeEntries rest₂ := by
        injection h
      exact List.Forall₂.cons
        ⟨(Prod.ext_iff.mp hhead).1, (Prod.ext_iff.mp hhead).2⟩ (ih htail)

theorem forall₂_mem_right {α β : Type} {R : α → β → Prop} :
    ∀ {l₁ : List α} {l₂ : List β}, List.Forall₂ R l₁ l₂ →
      ∀ {y : β}, y ∈ l₂ → ∃ x, x ∈ l₁ ∧ R x y := by
  intro l₁ l₂ h
  induction h with
  | nil =>
    intro y hy
    exact absurd hy (List.not_mem_nil y)
  | cons hr _ ih =>
    intro y hy
    rcases List.mem_cons.mp hy with hy | hy
    · subst hy
      exact ⟨_, List.mem_cons_self _ _, hr⟩
    · obtain ⟨x, hx, hxy⟩ := ih hy
      exact ⟨x, List.mem_cons_of_mem _ hx, hxy⟩

theorem categorize_congr : ∀ {l₁ l₂ : List (String × UserValue)},
    List.Forall₂ NVEq l₁ l₂ →
    (categorize l₁).properties = (categorize l₂).properties ∧
    List.Forall₂ NSEq (categorize l₁).nestedStyles (categorize l₂).nestedStyles := by
  intro l₁ l₂ h
  induction h with
  | nil => exact ⟨rfl, List.Forall₂.nil⟩
  | cons hr htail ih =>
    rename_i p q rest₁ rest₂
    obtain ⟨k₁, v₁⟩ := p
    obtain ⟨k₂, v₂⟩ := q
    obtain ⟨hk, hv⟩ := hr
    obtain rfl : k₁ = k₂ := hk
    cases v₁ with
    | scalar a₁ =>
      cases v₂ with
      | scalar a₂ =>
        obtain rfl : a₁ = a₂ := by
          rw [normalizeValue_scalar, normalizeValue_scalar] at hv
          injection hv
        exact ⟨by rw [categorize_props_scalar, categorize_props_scalar, ih.1], by
          rw [categorize_nested_scalar, categorize_nested_scalar]
          exact ih.2⟩
      | arr vs₂ =>
        rw [normalizeValue_scalar, normalizeValue_arr] at hv
        exact absurd hv (by intro hc; injection hc)
      | nested ts₂ =>
        rw [normalizeValue_scalar, normalizeValue_nested] at hv
        exact absurd hv (by intro hc; injection hc)
    | arr vs₁ =>
      cases v₂ with
      | scalar a₂ =>
        rw [normalizeValue_arr, normalizeValue_scalar] at hv
        exact absurd hv (by intro hc; injection hc)
      | arr vs₂ =>
        obtain rfl : vs₁ = vs₂ := by
          rw [normalizeValue_arr, normalizeValue_arr] at hv
          injection hv
        exact ⟨by rw [categorize_props_arr, categorize_props_arr, ih.1], by
          rw [categorize_nested_arr, categorize_nested_arr]
          exact ih.2⟩
      | nested ts₂ =>
        rw [normalizeValue_arr, normalizeValue_nested] at hv
        exact absurd hv (by intro hc; injection hc)
    | nested ts₁ =>
      cases v₂ with
      | scalar a₂ =>
        rw [normalizeValue_nested, normalizeValue_scalar] at hv
        exact absurd hv (by intro hc; injection hc)
      | arr vs₂ =>
        rw [normalizeValue_nested, normalizeValue_arr] at hv
        exact absurd hv (by intro hc; injection hc)
      | nested ts₂ =>
        have hns : normalizeStyles ts₁ = normalizeStyles ts₂ := by
          rw [normalizeValue_nested, normalizeValue_nested] at hv
          rw [normalizeStyles, normalizeStyles]
          injection hv
        refine ⟨by rw [categorize_props_nested, categorize_props_nested]; exact ih.1, ?_⟩
        rw [categorize_nested_nested, categorize_nested_nested]
        exact List.Forall₂.cons ⟨rfl, hns⟩ ih.2

theorem parse_congr {A B : UserStyles} (h : normalizeStyles A = normalizeStyles B) :
    (parseUserStyles A).properties = (parseUserStyles B).properties ∧
    List.Forall₂ NSEq (parseUserStyles A).nestedStyles (parseUserStyles B).nestedStyles := by
  have h' : normalizeEntries (sortPairs A) = normalizeEntries (sortPairs B) := by
    rw [normalizeEntries_sortPairs, normalizeEntries_sortPairs]
    exact h
  exact categorize_congr (forall₂_of_normalizeEntries_eq h')

theorem layerString_congr {A B : UserStyles} (h : normalizeStyles A = normalizeStyles B) :
    layerString A = layerString B := by
  rw [layerString, layerString, (parse_congr h).1]

/-- The running hash and the recorded style instances of the walk depend
on the style tree only through its normalized content — in particular not
on the container state (rank-indexed mutual statement). -/
theorem stylize_hash_insts : ∀ r : Nat,
    (∀ A B cA kA cB kB sel path hsh insts, 2 * ussize A + 1 ≤ r →
      normalizeStyles A = normalizeStyles B →
      (stylize cA kA A sel path hsh insts).hsh =
        (stylize cB kB B sel path hsh insts).hsh ∧
      (stylize cA kA A sel path hsh insts).insts =
        (stylize cB kB B sel path hsh insts).insts) ∧
    (∀ l₁ l₂ cA kA cB kB sel path hsh insts, 2 * uslSize l₁ ≤ r →
      List.Forall₂ NSEq l₁ l₂ →
      (stylizeList cA kA l₁ sel path hsh insts).hsh =
        (stylizeList cB kB l₂ sel path hsh insts).hsh ∧
      (stylizeList cA kA l₁ sel path hsh insts).insts =
        (stylizeList cB kB l₂ sel path hsh insts).insts) := by
  intro r
  induction r using Nat.strong_induction_on with
  | _ r ih =>
    constructor
    · intro A B cA kA cB kB sel path hsh insts hr hAB
      rw [stylize_unfold, stylize_unfold, layerString_congr hAB]
      exact (ih (2 * uslSize (parseUserStyles A).nestedStyles)
          (by have := uslSize_nested_le A; omega)).2
        (parseUserStyles A).nestedStyles (parseUserStyles B).nestedStyles _ _ _ _
        sel path _ _ (Nat.le_refl _) (parse_congr hAB).2
    · intro l₁ l₂ cA kA cB kB sel path hsh insts hr hf
      cases hf with
      | nil =>
        rw [stylizeList_nil, stylizeList_nil]
        exact ⟨rfl, rfl⟩
      | cons hr₀ htail =>
        rename_i p q rest₁ rest₂
        obtain ⟨name, ts₁⟩ := p
        obtain ⟨name₂, ts₂⟩ := q
        obtain rfl : name = name₂ := hr₀.1
        have hns : normalizeStyles ts₁ = normalizeStyles ts₂ := hr₀.2
        rw [uslSize] at hr
        by_cases hat : isAtRule name
        · rw [stylizeList_unfold_at hat, stylizeList_unfold_at hat]
          obtain ⟨hh, hi⟩ := (ih (2 * ussize ts₁ + 1) (by omega)).1 ts₁ ts₂
            (childOf (atAddCache cA kA name) name).subCacheOf
            (childOf (atAddCache cA kA name) name).subCountsOf
            (childOf (atAddCache cB kB name) name).subCacheOf
            (childOf (atAddCache cB kB name) name).subCountsOf
            sel (path ++ [atRuleId name]) hsh insts (Nat.le_refl _) hns
          rw [hh, hi]
          exact (ih (2 * uslSize rest₁) (by omega)).2 rest₁ rest₂ _ _ _ _
            sel path _ _ (Nat.le_refl _) htail
        · rw [stylizeList_unfold_not (by rw [Bool.eq_false_iff]; exact hat),
            stylizeList_unfold_not (by rw [Bool.eq_false_iff]; exact hat)]
          obtain ⟨hh, hi⟩ := (ih (2 * ussize ts₁ + 1) (by omega)).1 ts₁ ts₂
            cA kA cB kB (interpolate name sel) path hsh insts (Nat.le_refl _) hns
          rw [hh, hi]
          exact (ih (2 * uslSize rest₁) (by omega)).2 rest₁ rest₂ _ _ _ _
            sel path _ _ (Nat.le_refl _) htail

/-- Saturation only depends on the normalized content of the tree. -/
theorem sat_congr {c : List (String × CNode)} {k : List (String × Nat)} {A : UserStyles}
    (hsat : Sat c k A) : ∀ B, normalizeStyles A = normalizeStyles B → Sat c k B := by
  induction hsat with
  | mk cache counts S h1 h2 h3 h4 h5 ih₁ ih₂ =>
    intro B hAB
    obtain ⟨hprops, hnest⟩ := parse_congr hAB
    refine Sat.mk cache counts B ?_ ?_ ?_ ?_ ?_
    · rw [← hprops]
      exact h1
    · intro name ts hmem hat
      obtain ⟨⟨name₀, ts₀⟩, hmem₀, hk₀, _⟩ := forall₂_mem_right hnest hmem
      obtain rfl : name₀ = name := hk₀
      exact h2 name₀ ts₀ hmem₀ hat
    · intro name ts hmem hat
      obtain ⟨⟨name₀, ts₀⟩, hmem₀, hk₀, _⟩ := forall₂_mem_right hnest hmem
      obtain rfl : name₀ = name := hk₀
      exact h3 name₀ ts₀ hmem₀ hat
    · intro name ts rule sub subc hmem hat hget
      obtain ⟨⟨name₀, ts₀⟩, hmem₀, hk₀, hns₀⟩ := forall₂_mem_right hnest hmem
      obtain rfl : name₀ = name := hk₀
      exact ih₁ name₀ ts₀ rule sub subc hmem₀ hat hget ts hns₀
    · intro name ts hmem hat
      obtain ⟨⟨name₀, ts₀⟩, hmem₀, hk₀, hns₀⟩ := forall₂_mem_right hnest hmem
      obtain rfl : name₀ = name := hk₀
      exact ih₂ name₀ ts₀ hmem₀ hat ts hns₀

/-! ## Assembly: registration is invariant under key order -/

theorem registerUserStyles_eq (cache : List (String × CNode)) (counts : List (String × Nat))
    (styles : UserStyles) :
    registerUserStyles cache counts styles =
      ((stylize cache counts styles "&" [] 0 []).insts.foldl
        (fun c inst => addSelectorAt c inst.1 inst.2.1
          (interpolate inst.2.2
            ("." ++ hashToString (stylize cache counts styles "&" [] 0 []).hsh)))
        (stylize cache counts styles "&" [] 0 []).cache,
       (stylize cache counts styles "&" [] 0 []).counts,
       hashToString (stylize cache counts styles "&" [] 0 []).hsh) := rfl

set_option maxHeartbeats 2000000 in
/-- Core of the dedup argument: over any well-formed root state,
registering `B` right after a registration of a normalize-equal `A`
returns `A`'s class name and leaves the rendered output unchanged. -/
theorem register_core (cache : List (String × CNode)) (counts : List (String × Nat))
    (A B : UserStyles) (hwf : CacheWF cache counts) (hrev : CacheRev cache counts)
    (hAB : normalizeStyles A = normalizeStyles B) :
    (registerUserStyles (registerUserStyles cache counts A).1
        (registerUserStyles cache counts A).2.1 B).2.2 =
      (registerUserStyles cache counts A).2.2 ∧
    getStylesList (registerUserStyles (registerUserStyles cache counts A).1
        (registerUserStyles cache counts A).2.1 B).1 =
      getStylesList (registerUserStyles cache counts A).1 := by
  -- facts about the walk of A
  obtain ⟨hextA, hwfA⟩ := (stylize_ext_wf (2 * ussize A + 1)).1 A cache counts
    "&" [] 0 [] (Nat.le_refl _) hwf
  obtain ⟨hrevA, hplaceA⟩ := (stylize_insts (2 * ussize A + 1)).1 A cache counts
    "&" [] 0 [] (Nat.le_refl _) hwf hrev
  have hpresA : ∀ inst ∈ (stylize cache counts A "&" [] 0 []).insts,
      StylePresentAt (stylize cache counts A "&" [] 0 []).cache inst.1 inst.2.1 := by
    intro inst hm
    rcases hplaceA inst hm with h0 | ⟨suffix, hsuf, hp⟩
    · exact absurd h0 (List.not_mem_nil inst)
    · rw [List.nil_append] at hsuf
      rw [hsuf]
      exact hp
  -- the selector loop of A's registration
  obtain ⟨hextFA, hwfFA, hrevFA, hscpFA⟩ :=
    selLoop_spec ("." ++ hashToString (stylize cache counts A "&" [] 0 []).hsh)
      (stylize cache counts A "&" [] 0 []).insts
      (stylize cache counts A "&" [] 0 []).cache
      (stylize cache counts A "&" [] 0 []).counts hwfA hrevA hpresA
  -- the state after A's registration is saturated for B
  have hsatA := (stylize_sat (2 * ussize A + 1)).1 A cache counts "&" [] 0 []
    (Nat.le_refl _) hwf
  have hsatB := sat_congr (hsatA.mono ⟨hextFA, fun i => Nat.le_refl _⟩) B hAB
  -- the walk of B computes A's hash and instances
  obtain ⟨hh, hi⟩ := (stylize_hash_insts (2 * ussize A + 1)).1 A B cache counts
    ((stylize cache counts A "&" [] 0 []).insts.foldl
      (fun c inst => addSelectorAt c inst.1 inst.2.1
        (interpolate inst.2.2
          ("." ++ hashToString (stylize cache counts A "&" [] 0 []).hsh)))
      (stylize cache counts A "&" [] 0 []).cache)
    (stylize cache counts A "&" [] 0 []).counts "&" [] 0 [] (Nat.le_refl _) hAB
  -- facts about the walk of B
  obtain ⟨hextB, hwfB⟩ := (stylize_ext_wf (2 * ussize B + 1)).1 B
    ((stylize cache counts A "&" [] 0 []).insts.foldl
      (fun c inst => addSelectorAt c inst.1 inst.2.1
        (interpolate inst.2.2
          ("." ++ hashToString (stylize cache counts A "&" [] 0 []).hsh)))
      (stylize cache counts A "&" [] 0 []).cache)
    (stylize cache counts A "&" [] 0 []).counts "&" [] 0 [] (Nat.le_refl _) hwfFA
  have hrevB := ((stylize_insts (2 * ussize B + 1)).1 B
    ((stylize cache counts A "&" [] 0 []).insts.foldl
      (fun c inst => addSelectorAt c inst.1 inst.2.1
        (interpolate inst.2.2
          ("." ++ hashToString (stylize cache counts A "&" [] 0 []).hsh)))
      (stylize cache counts A "&" [] 0 []).cache)
    (stylize cache counts A "&" [] 0 []).counts "&" [] 0 [] (Nat.le_refl _) hwfFA hrevFA).1
  have hnoopB := (stylize_noop (2 * ussize B + 1)).1 B
    ((stylize cache counts A "&" [] 0 []).insts.foldl
      (fun c inst => addSelectorAt c inst.1 inst.2.1
        (interpolate inst.2.2
          ("." ++ hashToString (stylize cache counts A "&" [] 0 []).hsh)))
      (stylize cache counts A "&" [] 0 []).cache)
    (stylize cache counts A "&" [] 0 []).counts "&" [] 0 [] (Nat.le_refl _) hwfFA hsatB
  -- every instance recorded by B's walk already carries its selector
  have hscpB : ∀ inst ∈ (stylize
        ((stylize cache counts A "&" [] 0 []).insts.foldl
          (fun c inst => addSelectorAt c inst.1 inst.2.1
            (interpolate inst.2.2
              ("." ++ hashToString (stylize cache counts A "&" [] 0 []).hsh)))
          (stylize cache counts A "&" [] 0 []).cache)
        (stylize cache counts A "&" [] 0 []).counts B "&" [] 0 []).insts,
      SelCountPos (stylize
        ((stylize cache counts A "&" [] 0 []).insts.foldl
          (fun c inst => addSelectorAt c inst.1 inst.2.1
            (interpolate inst.2.2
              ("." ++ hashToString (stylize cache counts A "&" [] 0 []).hsh)))
          (stylize cache counts A "&" [] 0 []).cache)
        (stylize cache counts A "&" [] 0 []).counts B "&" [] 0 []).cache
        inst.1 inst.2.1
        (interpolate inst.2.2
          ("." ++ hashToString (stylize
            ((stylize cache counts A "&" [] 0 []).insts.foldl
              (fun c inst => addSelectorAt c inst.1 inst.2.1
                (interpolate inst.2.2
                  ("." ++ hashToString (stylize cache counts A "&" [] 0 []).hsh)))
              (stylize cache counts A "&" [] 0 []).cache)
            (stylize cache counts A "&" [] 0 []).counts B "&" [] 0 []).hsh)) := by
    intro inst hm
    rw [← hi] at hm
    rw [← hh]
    exact selCountPos_mono hextB.1 (hscpFA inst hm)
  -- the selector loop of B's registration changes no erased state
  have hnoopFB := selLoop_noop
    ("." ++ hashToString (stylize
      ((stylize cache counts A "&" [] 0 []).insts.foldl
        (fun c inst => addSelectorAt c inst.1 inst.2.1
          (interpolate inst.2.2
            ("." ++ hashToString (stylize cache counts A "&" [] 0 []).hsh)))
        (stylize cache counts A "&" [] 0 []).cache)
      (stylize cache counts A "&" [] 0 []).counts B "&" [] 0 []).hsh)
    (stylize
      ((stylize cache counts A "&" [] 0 []).insts.foldl
        (fun c inst => addSelectorAt c inst.1 inst.2.1
          (interpolate inst.2.2
            ("." ++ hashToString (stylize cache counts A "&" [] 0 []).hsh)))
        (stylize cache counts A "&" [] 0 []).cache)
      (stylize cache counts A "&" [] 0 []).counts B "&" [] 0 []).insts
    (stylize
      ((stylize cache counts A "&" [] 0 []).insts.foldl
        (fun c inst => addSelectorAt c inst.1 inst.2.1
          (interpolate inst.2.2
            ("." ++ hashToString (stylize cache counts A "&" [] 0 []).hsh)))
        (stylize cache counts A "&" [] 0 []).cache)
      (stylize cache counts A "&" [] 0 []).counts B "&" [] 0 []).cache
    (stylize
      ((stylize cache counts A "&" [] 0 []).insts.foldl
        (fun c inst => addSelectorAt c inst.1 inst.2.1
          (interpolate inst.2.2
            ("." ++ hashToString (stylize cache counts A "&" [] 0 []).hsh)))
        (stylize cache counts A "&" [] 0 []).cache)
      (stylize cache counts A "&" [] 0 []).counts B "&" [] 0 []).counts
    hwfB hrevB hscpB
  constructor
  · show hashToString (stylize
        ((stylize cache counts A "&" [] 0 []).insts.foldl
          (fun c inst => addSelectorAt c inst.1 inst.2.1
            (interpolate inst.2.2
              ("." ++ hashToString (stylize cache counts A "&" [] 0 []).hsh)))
          (stylize cache counts A "&" [] 0 []).cache)
        (stylize cache counts A "&" [] 0 []).counts B "&" [] 0 []).hsh =
      hashToString (stylize cache counts A "&" [] 0 []).hsh
    exact congrArg hashToString hh.symm
  · exact Eq.trans (getStylesList_congr hnoopFB) (getStylesList_congr hnoopB)

/-- The two orderings of the spec's example layer. -/
def demoA : UserStyles :=
  [("background", UserValue.scalar (some "blue")), ("color", UserValue.scalar (some "red"))]

/-- The reversed key order of `demoA`. -/
def demoB : UserStyles :=
  [("color", UserValue.scalar (some "red")), ("background", UserValue.scalar (some "blue"))]

/-- C1: for every two style trees whose normalized (recursively key-sorted)
content is equal, registering the first and then the second on the same
well-formed root returns the same class name and leaves the rendered CSS of
the root unchanged — the declaration block is not emitted a second time; in
particular `\x7bbackground:'blue', color:'red'\x7d` and
`\x7bcolor:'red', background:'blue'\x7d` yield one class name, the root renders
as the single rule `.<class>\x7bbackground:blue;color:red;\x7d`, and the body
`background:blue;color:red;` occurs exactly once in the rendered output. -/
theorem register_dedup :
    (∀ (f : FreeStyle) (A B : UserStyles),
      CacheWF f.cache f.counts → CacheRev f.cache f.counts →
      normalizeStyles A = normalizeStyles B →
      ((f.registerStyle A).1.registerStyle B).2 = (f.registerStyle A).2 ∧
      ((f.registerStyle A).1.registerStyle B).1.getStyles =
        (f.registerStyle A).1.getStyles) ∧
    (((create.registerStyle demoA).1.registerStyle demoB).2 =
        (create.registerStyle demoA).2 ∧
      ((create.registerStyle demoA).1.registerStyle demoB).1.getStyles =
        "." ++ (create.registerStyle demoA).2 ++ "\x7bbackground:blue;color:red;\x7d" ∧
      countSub "background:blue;color:red;".data
        ((create.registerStyle demoA).1.registerStyle demoB).1.getStyles.data = 1) := by
  refine ⟨?_, by decide, by decide, by decide⟩
  intro f A B hwf hrev hAB
  exact register_core f.cache f.counts A B hwf hrev hAB

theorem register_dedup_witness :
    ((create.registerStyle demoA).1.registerStyle demoB).2 =
      (create.registerStyle demoA).2 ∧
    ((create.registerStyle demoA).1.registerStyle demoB).1.getStyles =
      (create.registerStyle demoA).1.getStyles :=
  register_dedup.1 create demoA demoB (cacheWF_nil []) cacheRev_nil rfl

end FreeStyle
